import Mathlib

/-!
Shallow embedding of the family-tree generator
(`FamilyTree.py` / `PersonFactory.py`, with the parallel variants
`family_tree_ai.py` / `person_factory_ai.py` where the two differ).

Python floats are modelled as rationals, the shared pseudo-random
stream as an explicit list of rationals consumed left to right, and
fallible operations (dict indexing, `random.choices`, `random.randint`)
as `Option`-valued functions where `none` is a raised exception.
Person references are indices into the flat registry list.
-/

set_option maxRecDepth 40000

namespace FamilyTreeSim

/-- Python `int()` applied to a real value: truncation toward zero. -/
def pyInt (q : ℚ) : ℤ := if q < 0 then ⌈q⌉ else ⌊q⌋

/-- Python built-in `round()` on a real value: round half to even. -/
def pyRound (q : ℚ) : ℤ :=
  if q - ⌊q⌋ < 1/2 then ⌊q⌋
  else if (1:ℚ)/2 < q - ⌊q⌋ then ⌊q⌋ + 1
  else if 2 ∣ ⌊q⌋ then ⌊q⌋ else ⌊q⌋ + 1

/-- Python `f"{(year // 10) * 10}s"` (`//` is floor division). -/
def decadeStr (y : ℤ) : String := toString (10 * Int.fdiv y 10) ++ "s"

/-- Python `d[key]` on a plain dict: `KeyError` (`none`) on a missing key. -/
def dictGet : List (String × ℚ) → String → Option ℚ
  | [], _ => none
  | (k, v) :: rest, d => if k = d then some v else dictGet rest d

/-- `random.random()`: consumes one value of the stream, result in `[0, 1)`. -/
def pyRandom (o : List ℚ) : ℚ × List ℚ :=
  (if 0 ≤ o.headD 0 ∧ o.headD 0 < 1 then o.headD 0 else 0, o.tail)

/-- `random.randint(a, b)`: uniform on the inclusive range `[a, b]`,
`ValueError` (`none`) when `b < a`. Consumes one stream value. -/
def pyRandint (a b : ℤ) (o : List ℚ) : Option (ℤ × List ℚ) :=
  if b < a then none
  else some (a + ((⌊o.headD 0⌋).natAbs % (b - a + 1).toNat : ℕ), o.tail)

/-- The bisection over cumulative weights performed by `random.choices`
with `hi = len - 1`: the last element absorbs any remaining mass. -/
def pickByWeight : List (String × ℚ) → ℚ → String
  | [], _ => "Unknown"
  | [x], _ => x.1
  | x :: y :: rest, t => if t < x.2 then x.1 else pickByWeight (y :: rest) (t - x.2)

/-- `random.choices(names, weights=weights, k=1)[0]`: raises (`none`) on an
empty population (`IndexError`) or a non-positive weight total
(`ValueError`); otherwise draws `random() * total` and bisects. -/
def pyChoices (choices : List (String × ℚ)) (o : List ℚ) :
    Option (String × List ℚ) :=
  if choices.isEmpty ∨ (choices.map Prod.snd).sum ≤ 0 then none
  else
    some (pickByWeight choices ((pyRandom o).1 * (choices.map Prod.snd).sum),
      (pyRandom o).2)

/-- `PersonFactory.weighted_choice` (PersonFactory.py): calls
`random.choices` directly, with no guard for an empty list. -/
def weighted_choice (choices : List (String × ℚ)) (o : List ℚ) :
    Option (String × List ℚ) :=
  pyChoices choices o

/-- `PersonFactory._weighted_pick` (person_factory_ai.py): returns
`"Unknown"` for an empty list, otherwise calls `random.choices`. -/
def weighted_pick (choices : List (String × ℚ)) (o : List ℚ) :
    Option (String × List ℚ) :=
  if choices.isEmpty then some ("Unknown", o) else pyChoices choices o

/-- `PersonFactory.clamp_year_to_data` (PersonFactory.py); identical to
`_clamp_year` in person_factory_ai.py with its fixed bounds 1950/2129. -/
def clamp_year_to_data (year : ℤ) : ℤ :=
  if year < 1950 then 1950 else if year > 2129 then 2129 else year

/-- `PersonFactory.get_birth_rate` (person_factory_ai.py):
`self._birth_rates.get(decade, 2.0)`. -/
def get_birth_rate (tbl : List (String × ℚ)) (d : String) : ℚ :=
  (dictGet tbl d).getD 2

/-- `PersonFactory.get_marriage_rate` (person_factory_ai.py):
`self._marriage_rates.get(decade, 0.5)`. -/
def get_marriage_rate (tbl : List (String × ℚ)) (d : String) : ℚ :=
  (dictGet tbl d).getD (1/2)

/-- `PersonFactory.get_life_expectancy` (person_factory_ai.py):
`self._life_expectancy.get(decade, 80.0)`. -/
def get_life_expectancy (tbl : List (String × ℚ)) (d : String) : ℚ :=
  (dictGet tbl d).getD 80

/-- `FamilyTree.distribute_birth_years` (FamilyTree.py); identical logic to
`_spread_birth_years` in family_tree_ai.py. -/
def distribute_birth_years (startY endY : ℤ) (num_children : ℤ) : List ℤ :=
  if num_children ≤ 0 then []
  else if num_children = 1 then [pyRound ((startY + endY : ℚ) / 2)]
  else
    (List.range num_children.toNat).map fun (i : ℕ) =>
      min endY (max startY
        (pyRound (startY + (i : ℚ) * ((endY - startY : ℚ) / (num_children - 1)))))

/-- `min_children = int(ceil(birth_rate - 1.5))` as computed in
`FamilyTree.generate_family_tree` (FamilyTree.py line 144): no clamp. -/
def minChildrenFT (birth_rate : ℚ) : ℤ := ⌈birth_rate - 3/2⌉

/-- `min_children = max(0, math.ceil(birth_rate - 1.5))` as computed in
`FamilyTree._expand_tree` (family_tree_ai.py line 84). -/
def minChildrenAI (birth_rate : ℚ) : ℤ := max 0 ⌈birth_rate - 3/2⌉

/-- `max_children = ceil(birth_rate + 1.5)` (both implementations). -/
def maxChildrenOf (birth_rate : ℚ) : ℤ := ⌈birth_rate + 3/2⌉

/-- One family member. `spouse` and `children` are references into the
registry, modelled as indices. -/
structure Person where
  year_born : ℤ
  year_died : ℤ
  first_name : String
  last_name : String
  spouse : Option ℕ
  children : List ℕ
deriving DecidableEq, Repr

/-- Ghost provenance tag recording which step added a registry entry. -/
inductive Prov where
  | founder
  | spouse
  | child
deriving DecidableEq, Repr

/-- The flat collection of all generated people. -/
abbrev Registry := List (Prov × Person)

/-- The loaded demographic tables of `PersonFactory` after `read_files`:
the two name tables are `defaultdict(list)` (total, `[]` on a missing
key), the three numeric tables are plain dicts (KeyError on a miss). -/
structure Factory where
  first_name_by_decade : String → List (String × ℚ)
  last_name_by_decade : String → List (String × ℚ)
  life_expectancy_by_decade : List (String × ℚ)
  birth_rate_by_decade : List (String × ℚ)
  marriage_rate_by_decade : List (String × ℚ)

/-- `PersonFactory.get_person` (PersonFactory.py): clamp the year, draw a
first and a last name by weighted choice, look up life expectancy, and
add uniform integer noise in `[-10, 10]` to the death year. -/
def getPerson (f : Factory) (year_born : ℤ) (o : List ℚ) :
    Option (Person × List ℚ) :=
  match weighted_choice
      (f.first_name_by_decade (decadeStr (clamp_year_to_data year_born))) o with
  | none => none
  | some (fn, o1) =>
    match weighted_choice
        (f.last_name_by_decade (decadeStr (clamp_year_to_data year_born))) o1 with
    | none => none
    | some (ln, o2) =>
      match dictGet f.life_expectancy_by_decade
          (decadeStr (clamp_year_to_data year_born)) with
      | none => none
      | some le =>
        match pyRandint (-10) 10 o2 with
        | none => none
        | some (v, o3) =>
          some ({ year_born := clamp_year_to_data year_born,
                  year_died := pyInt (clamp_year_to_data year_born + le + v),
                  first_name := fn, last_name := ln,
                  spouse := none, children := [] }, o3)

/-- `FamilyTree.determine_year_died` (FamilyTree.py). -/
def determine_year_died (f : Factory) (year_born : ℤ) (o : List ℚ) :
    Option (ℤ × List ℚ) :=
  match dictGet f.life_expectancy_by_decade (decadeStr year_born) with
  | none => none
  | some le =>
    match pyRandint (-10) 10 o with
    | none => none
    | some (v, o1) => some (pyInt (year_born + le + v), o1)

/-- The registry and BFS work queue of `FamilyTree`. -/
structure TreeState where
  registry : Registry
  queue : List ℕ
deriving DecidableEq, Repr

/-- `FamilyTree.init_roots`: Desmond Jones and Molly Smith, both born 1950,
mutually married; only the first is enqueued. -/
def initRoots (f : Factory) (o : List ℚ) : Option (TreeState × List ℚ) :=
  match determine_year_died f 1950 o with
  | none => none
  | some (yd1, o1) =>
    match determine_year_died f 1950 o1 with
    | none => none
    | some (yd2, o2) =>
      some ({ registry :=
                [(Prov.founder,
                  { year_born := 1950, year_died := yd1,
                    first_name := "Desmond", last_name := "Jones",
                    spouse := some 1, children := [] }),
                 (Prov.founder,
                  { year_born := 1950, year_died := yd2,
                    first_name := "Molly", last_name := "Smith",
                    spouse := some 0, children := [] })],
              queue := [0] }, o2)

/-- The `year_born` of registry entry `j` (0 when the index is invalid,
which never happens in reachable states). -/
def yearAt (reg : Registry) (j : ℕ) : ℤ :=
  ((reg[j]?).map fun x => x.2.year_born).getD 0

/-- The `spouse` field of registry entry `j`. -/
def spouseAt (reg : Registry) (j : ℕ) : Option ℕ :=
  match reg[j]? with
  | some x => x.2.spouse
  | none => none

/-- `current_person.children.append(child)` followed by
`current_person.spouse.children.append(child)` when a spouse exists. -/
def addChildLinks (reg : Registry) (i cIdx : ℕ) : Registry :=
  match reg[i]? with
  | none => reg
  | some (pv, p) =>
    match p.spouse with
    | none => reg.set i (pv, { p with children := p.children ++ [cIdx] })
    | some j =>
      match (reg.set i (pv, { p with children := p.children ++ [cIdx] }))[j]? with
      | none => reg.set i (pv, { p with children := p.children ++ [cIdx] })
      | some (qv, q) =>
        (reg.set i (pv, { p with children := p.children ++ [cIdx] })).set j
          (qv, { q with children := q.children ++ [cIdx] })

/-- The `for year in child_years` loop of `generate_family_tree`: skip
years beyond the 2120 cutoff, generate the child, force its surname to a
uniformly chosen root surname, link it to both parents, and append it to
the registry and the queue. -/
def childLoop (f : Factory) (reg : Registry) (i : ℕ) (acc : List ℕ) :
    List ℤ → List ℚ → Option (Registry × List ℕ × List ℚ)
  | [], o => some (reg, acc, o)
  | y :: ys, o =>
    if y > 2120 then childLoop f reg i acc ys o
    else
      match getPerson f y o with
      | none => none
      | some (c, o1) =>
        match pyRandint 0 1 o1 with
        | none => none
        | some (k, o2) =>
          childLoop f
            (addChildLinks reg i reg.length ++
              [(Prov.child,
                { c with last_name := if k = 0 then "Jones" else "Smith" })])
            i (acc ++ [reg.length]) ys o2

/-- The marriage step of `generate_family_tree`: when the dequeued person
has no spouse, roll against the marriage rate of the decade and possibly
synthesize a spouse born within ±10 years, linked symmetrically. -/
def marriageStep (f : Factory) (reg : Registry) (i : ℕ) (o : List ℚ) :
    Option (Registry × List ℚ) :=
  match reg[i]? with
  | none => none
  | some (pv, p) =>
    match p.spouse with
    | some _ => some (reg, o)
    | none =>
      match dictGet f.marriage_rate_by_decade (decadeStr p.year_born) with
      | none => none
      | some mr =>
        if (pyRandom o).1 < mr then
          match pyRandint (-10) 10 (pyRandom o).2 with
          | none => none
          | some (d, o2) =>
            match getPerson f (p.year_born + d) o2 with
            | none => none
            | some (sp, o3) =>
              some (reg.set i (pv, { p with spouse := some reg.length }) ++
                [(Prov.spouse, { sp with spouse := some i })], o3)
        else some (reg, (pyRandom o).2)

/-- The fertility and child steps of `generate_family_tree`: derive the
child-count range from the birth rate of the decade, draw a count, distribute
birth years over `[elder + 25, elder + 45]`, and materialize children. -/
def fertilityStep (f : Factory) (reg : Registry) (i : ℕ) (o : List ℚ) :
    Option (Registry × List ℕ × List ℚ) :=
  match reg[i]? with
  | none => none
  | some (_, p) =>
    match dictGet f.birth_rate_by_decade (decadeStr p.year_born) with
    | none => none
    | some br =>
      match pyRandint (minChildrenFT br) (maxChildrenOf br) o with
      | none => none
      | some (numC, o1) =>
        if numC = 0 then some (reg, [], o1)
        else
          childLoop f reg i []
            (distribute_birth_years
              ((match p.spouse with
                | some j => min p.year_born (yearAt reg j)
                | none => p.year_born) + 25)
              ((match p.spouse with
                | some j => min p.year_born (yearAt reg j)
                | none => p.year_born) + 45)
              numC) o1

/-- One iteration of the `while self.queue` loop, for dequeued index `i`;
`s.queue` is the queue with `i` already popped. -/
def stepPerson (f : Factory) (s : TreeState) (i : ℕ) (o : List ℚ) :
    Option (TreeState × List ℚ) :=
  match marriageStep f s.registry i o with
  | none => none
  | some (reg1, o1) =>
    match fertilityStep f reg1 i o1 with
    | none => none
    | some (reg2, newQ, o2) =>
      some ({ registry := reg2, queue := s.queue ++ newQ }, o2)

/-- Outcome of running the generation loop: normal completion, a raised
exception (KeyError / ValueError / IndexError), or fuel exhaustion. -/
inductive RunResult where
  | ok (s : TreeState) (o : List ℚ)
  | err
  | outOfFuel
deriving DecidableEq, Repr

/-- The `while self.queue` loop of `generate_family_tree`, with fuel. -/
def runLoop (f : Factory) : ℕ → TreeState → List ℚ → RunResult
  | 0, s, o => if s.queue.isEmpty then RunResult.ok s o else RunResult.outOfFuel
  | n + 1, s, o =>
    match s.queue with
    | [] => RunResult.ok s o
    | i :: rest =>
      match stepPerson f { s with queue := rest } i o with
      | none => RunResult.err
      | some (s1, o1) => runLoop f n s1 o1

/-- `FamilyTree.__init__` without the file reading: `init_roots` followed
by `generate_family_tree`. -/
def generateFamilyTree (f : Factory) (fuel : ℕ) (o : List ℚ) : RunResult :=
  match initRoots f o with
  | none => RunResult.err
  | some (s, o1) => runLoop f fuel s o1

/-- Upper bound on the number of children any single dequeued person can
materialize: the largest `ceil(birth_rate + 1.5)` in the loaded table. -/
def Kn (f : Factory) : ℕ :=
  (f.birth_rate_by_decade.map fun kv => (⌈kv.2 + 3/2⌉ : ℤ).toNat).foldr max 0

/-- Fuel sufficient for the generation loop to drain its queue. -/
def fuelBound (f : Factory) : ℕ := (Kn f + 1) ^ 171 + 1

/-- The registry delivered by a completed generation run. -/
def resultRegistry : RunResult → Registry
  | RunResult.ok s _ => s.registry
  | _ => []

/-! ### Specification-support definitions and concrete runs -/

/-- Demographic table whose birth-rate dict is missing the decade key
"1950s" even though the founders are born 1950. -/
def fC3 : Factory where
  first_name_by_decade := fun _ => [("Ann", 1)]
  last_name_by_decade := fun _ => [("Lee", 1)]
  life_expectancy_by_decade := [("1950s", 80)]
  birth_rate_by_decade := [("1960s", 2)]
  marriage_rate_by_decade := [("1950s", 0)]

/-- Factory and output for the C8 witness. -/
def fW8 : Factory where
  first_name_by_decade := fun _ => [("Ann", 1)]
  last_name_by_decade := fun _ => [("Lee", 1)]
  life_expectancy_by_decade := [("1980s", 80)]
  birth_rate_by_decade := []
  marriage_rate_by_decade := []

/-- The Person that `get_person` returns for year 1980 and stream
`[0, 0, 0]`. -/
def pW8 : Person :=
  { year_born := 1980, year_died := 2050, first_name := "Ann",
    last_name := "Lee", spouse := none, children := [] }

/-- The fields of a registry entry other than its `children` list. -/
def pcore (e : Prov × Person) : Prov × ℤ × ℤ × String × String × Option ℕ :=
  (e.1, e.2.year_born, e.2.year_died, e.2.first_name, e.2.last_name, e.2.spouse)

/-- What holds of every registry entry appended by the child loop. -/
def NewChild (years : List ℤ) (e : Prov × Person) : Prop :=
  e.1 = Prov.child ∧ e.2.spouse = none ∧
  (e.2.last_name = "Jones" ∨ e.2.last_name = "Smith") ∧
  e.2.year_born ∈ years ∧ e.2.year_born ≤ 2120

/-- The generic new-entry description shared by both halves of the
fertility-step conclusion. -/
def ChildEntry (e : Prov × Person) : Prop :=
  e.1 = Prov.child ∧ e.2.spouse = none ∧
  (e.2.last_name = "Jones" ∨ e.2.last_name = "Smith") ∧
  1975 ≤ e.2.year_born ∧ e.2.year_born ≤ 2120

/-- Registry-wide invariants of the generation run. -/
structure RegInv (reg : Registry) : Prop where
  ry : ∀ e ∈ reg, 1950 ≤ e.2.year_born ∧ e.2.year_born ≤ 2129
  rp : ∀ e ∈ reg, e.1 ≠ Prov.spouse → e.2.year_born ≤ 2120
  rc : ∀ e ∈ reg, e.1 = Prov.child →
    (e.2.last_name = "Jones" ∨ e.2.last_name = "Smith") ∧
    1975 ≤ e.2.year_born ∧ e.2.year_born ≤ 2120
  rs : ∀ a b, spouseAt reg a = some b → b < reg.length ∧ spouseAt reg b = some a

/-- Full invariant of the BFS loop state. -/
structure Inv (s : TreeState) : Prop where
  qlt : ∀ c ∈ s.queue, c < s.registry.length
  qy : ∀ c ∈ s.queue, yearAt s.registry c ≤ 2120
  qsp : ∀ c ∈ s.queue, ∀ j, spouseAt s.registry c = some j →
    yearAt s.registry c - 10 ≤ yearAt s.registry j
  reginv : RegInv s.registry

/-- Termination measure: youngest queue entries contribute the smallest
powers; each dequeue strictly decreases the total. -/
def queueMeasure (K : ℕ) (reg : Registry) (q : List ℕ) : ℕ :=
  (q.map fun j => (K + 1) ^ (2121 - yearAt reg j).toNat).sum

/-- Single-name tables, marriage only in the 2110s, birth rates that
drive one single-child chain 1950 → 1985 → 2020 → 2055 → 2090 and a
final 2090s pair (2115 kept, 2135 dropped). -/
def fC1 : Factory where
  first_name_by_decade := fun _ => [("Ann", 1)]
  last_name_by_decade := fun _ => [("Lee", 1)]
  life_expectancy_by_decade :=
    [("1950s", 80), ("1980s", 80), ("2020s", 80), ("2050s", 80),
     ("2090s", 80), ("2110s", 80), ("2120s", 80)]
  birth_rate_by_decade :=
    [("1950s", 2), ("1980s", 2), ("2020s", 2), ("2050s", 2),
     ("2090s", 2), ("2110s", 1/2)]
  marriage_rate_by_decade :=
    [("1980s", 0), ("2020s", 0), ("2050s", 0), ("2090s", 0), ("2110s", 1)]

/-- Random stream for the fC1 run; the 20 drives the +10 spouse-year
noise for the person born 2115. -/
def oC1 : List ℚ :=
  [0, 0, 0, 0, 0, 0, 0, 0, 0, 0, 0, 0, 0, 0, 0, 0, 0, 0, 0, 0, 0, 0, 0, 0, 0,
   0, 1, 0, 0, 0, 0, 0, 20, 0, 0, 0, 1]

/-- The spouse synthesized for the person born 2115 in the fC1 run. -/
def spC1 : Person :=
  { year_born := 2125, year_died := 2195, first_name := "Ann",
    last_name := "Lee", spouse := some 6, children := [] }

/-- Tables whose 1980s last name is "Garcia", with certain marriage in
the 1980s. -/
def fC2 : Factory where
  first_name_by_decade := fun _ => [("Ann", 1)]
  last_name_by_decade := fun _ => [("Garcia", 1)]
  life_expectancy_by_decade := [("1950s", 80), ("1980s", 80)]
  birth_rate_by_decade := [("1950s", 2), ("1980s", 1/2)]
  marriage_rate_by_decade := [("1980s", 1)]

/-- Random stream for the fC2 run: one child born 1985 who then marries
a spouse born the same year whose surname comes from the table. -/
def oC2 : List ℚ := [0, 0, 0, 0, 0, 0, 0, 0, 10, 0, 0, 0, 1]

/-- The child materialized in the fC2 run (forced surname "Jones"). -/
def cC2 : Person :=
  { year_born := 1985, year_died := 2055, first_name := "Ann",
    last_name := "Jones", spouse := some 3, children := [] }

/-- The spouse synthesized in the fC2 run, surname drawn from the
demographic table. -/
def spC2 : Person :=
  { year_born := 1985, year_died := 2055, first_name := "Ann",
    last_name := "Garcia", spouse := some 2, children := [] }

/-- Final state of the fC2 run. -/
def sC2 : TreeState where
  registry :=
    [(Prov.founder,
      { year_born := 1950, year_died := 2020, first_name := "Desmond",
        last_name := "Jones", spouse := some 1, children := [2] }),
     (Prov.founder,
      { year_born := 1950, year_died := 2020, first_name := "Molly",
        last_name := "Smith", spouse := some 0, children := [2] }),
     (Prov.child, cC2), (Prov.spouse, spC2)]
  queue := []

/-- Tables with a negative birth rate, so the founders have no children
and the run finishes after one dequeue. -/
def fW : Factory where
  first_name_by_decade := fun _ => [("Ann", 1)]
  last_name_by_decade := fun _ => [("Lee", 1)]
  life_expectancy_by_decade := [("1950s", 80)]
  birth_rate_by_decade := [("1950s", -5)]
  marriage_rate_by_decade := [("1950s", 0)]

/-- Desmond Jones as generated in the fW run. -/
def pW1 : Person :=
  { year_born := 1950, year_died := 2020, first_name := "Desmond",
    last_name := "Jones", spouse := some 1, children := [] }

/-- Final state of the fW run: just the two founders. -/
def sW : TreeState where
  registry :=
    [(Prov.founder, pW1),
     (Prov.founder,
      { year_born := 1950, year_died := 2020, first_name := "Molly",
        last_name := "Smith", spouse := some 0, children := [] })]
  queue := []

/-- The state produced by `initRoots` on fC2. -/
def s0C7 : TreeState where
  registry :=
    [(Prov.founder,
      { year_born := 1950, year_died := 2020, first_name := "Desmond",
        last_name := "Jones", spouse := some 1, children := [] }),
     (Prov.founder,
      { year_born := 1950, year_died := 2020, first_name := "Molly",
        last_name := "Smith", spouse := some 0, children := [] })]
  queue := [0]

/-- The state after one loop iteration on `s0C7` with stream
`[0, 0, 0, 0, 0]`: one child born 1985 is enqueued. -/
def s1C7 : TreeState where
  registry :=
    [(Prov.founder,
      { year_born := 1950, year_died := 2020, first_name := "Desmond",
        last_name := "Jones", spouse := some 1, children := [2] }),
     (Prov.founder,
      { year_born := 1950, year_died := 2020, first_name := "Molly",
        last_name := "Smith", spouse := some 0, children := [2] }),
     (Prov.child,
      { year_born := 1985, year_died := 2055, first_name := "Ann",
        last_name := "Jones", spouse := none, children := [] })]
  queue := [2]

/-! ### Rounding lemmas -/

theorem floor_le_pyRound (q : ℚ) : ⌊q⌋ ≤ pyRound q := by
  unfold pyRound
  split
  · exact le_refl _
  · split
    · omega
    · split
      · exact le_refl _
      · omega

theorem pyRound_le_floor_add_one (q : ℚ) : pyRound q ≤ ⌊q⌋ + 1 := by
  unfold pyRound
  split
  · omega
  · split
    · omega
    · split
      · omega
      · omega

theorem pyRound_intCast (n : ℤ) : pyRound (n : ℚ) = n := by
  unfold pyRound
  rw [Int.floor_intCast]
  norm_num

theorem pyRound_le (q : ℚ) : (pyRound q : ℚ) ≤ q + 1/2 := by
  have h0 : (⌊q⌋ : ℚ) ≤ q := Int.floor_le q
  unfold pyRound
  split
  · linarith
  · split
    · push_cast
      linarith
    · split
      · linarith
      · push_cast
        rename_i h1 h2 _
        rw [not_lt] at h1 h2
        linarith

theorem le_pyRound (q : ℚ) : q - 1/2 ≤ (pyRound q : ℚ) := by
  have h1 : q < ⌊q⌋ + 1 := Int.lt_floor_add_one q
  unfold pyRound
  split
  · rename_i h
    linarith
  · split
    · push_cast
      linarith
    · split
      · rename_i h _ _
        rw [not_lt] at h
        linarith
      · push_cast
        linarith

theorem pyRound_mono {x y : ℚ} (h : x ≤ y) : pyRound x ≤ pyRound y := by
  rcases lt_or_eq_of_le (Int.floor_mono h) with hf | hf
  · have h1 := pyRound_le_floor_add_one x
    have h2 := floor_le_pyRound y
    omega
  · unfold pyRound
    rw [← hf]
    have hc : ((⌊x⌋ : ℚ)) = ((⌊y⌋ : ℚ)) := by exact_mod_cast hf
    split_ifs <;> first | omega | (exfalso; rw [← hc] at *; linarith)

/-- In-range bound for Python round: an argument between two integers
rounds to a value between them. -/
theorem pyRound_mem {a b : ℤ} {q : ℚ} (ha : (a : ℚ) ≤ q) (hb : q ≤ (b : ℚ)) :
    a ≤ pyRound q ∧ pyRound q ≤ b := by
  constructor
  · have := pyRound_mono ha
    rwa [pyRound_intCast] at this
  · have := pyRound_mono hb
    rwa [pyRound_intCast] at this

/-- Adjacent grid points `s + i·ν` and `s + (i+1)·ν` with
`ν = (e-s)/(n-1)` round to values at most `⌈ν⌉` apart. -/
theorem pyRound_grid_gap (s e n : ℤ) (i : ℕ) (h2 : 2 ≤ n) :
    pyRound ((s : ℚ) + ((i : ℚ) + 1) * ((e - s : ℚ) / ((n : ℚ) - 1))) -
      pyRound ((s : ℚ) + (i : ℚ) * ((e - s : ℚ) / ((n : ℚ) - 1))) ≤
      ⌈(e - s : ℚ) / ((n : ℚ) - 1)⌉ := by
  have hn1 : ((n : ℚ) - 1) ≠ 0 := by
    have : (2 : ℚ) ≤ (n : ℚ) := by exact_mod_cast h2
    linarith
  by_cases hd : (n - 1) ∣ (e - s)
  · obtain ⟨m, hm⟩ := hd
    have hmQ : ((e - s : ℤ) : ℚ) = (((n - 1) * m : ℤ) : ℚ) := by exact_mod_cast hm
    push_cast at hmQ
    have hν : (e - s : ℚ) / ((n : ℚ) - 1) = (m : ℚ) := by
      rw [show ((e : ℚ) - s) = ((n : ℚ) - 1) * (m : ℚ) by linarith]
      field_simp
    rw [hν]
    rw [show (s : ℚ) + ((i : ℚ) + 1) * (m : ℚ) = ((s + (i + 1) * m : ℤ) : ℚ) by push_cast; ring]
    rw [show (s : ℚ) + (i : ℚ) * (m : ℚ) = ((s + i * m : ℤ) : ℚ) by push_cast; ring]
    rw [pyRound_intCast, pyRound_intCast, Int.ceil_intCast]
    ring_nf
    omega
  · have harg : (s : ℚ) + ((i : ℚ) + 1) * ((e - s : ℚ) / ((n : ℚ) - 1)) =
        ((s : ℚ) + (i : ℚ) * ((e - s : ℚ) / ((n : ℚ) - 1))) +
          (e - s : ℚ) / ((n : ℚ) - 1) := by ring
    have hub := pyRound_le (((s : ℚ) + (i : ℚ) * ((e - s : ℚ) / ((n : ℚ) - 1))) +
      (e - s : ℚ) / ((n : ℚ) - 1))
    have hlb := le_pyRound ((s : ℚ) + (i : ℚ) * ((e - s : ℚ) / ((n : ℚ) - 1)))
    have hq : (pyRound ((s : ℚ) + ((i : ℚ) + 1) * ((e - s : ℚ) / ((n : ℚ) - 1))) : ℚ) -
        (pyRound ((s : ℚ) + (i : ℚ) * ((e - s : ℚ) / ((n : ℚ) - 1))) : ℚ) ≤
          (e - s : ℚ) / ((n : ℚ) - 1) + 1 := by
      rw [harg]
      linarith
    have hfl : pyRound ((s : ℚ) + ((i : ℚ) + 1) * ((e - s : ℚ) / ((n : ℚ) - 1))) -
        pyRound ((s : ℚ) + (i : ℚ) * ((e - s : ℚ) / ((n : ℚ) - 1))) ≤
          ⌊(e - s : ℚ) / ((n : ℚ) - 1)⌋ + 1 := by
      rw [show (⌊(e - s : ℚ) / ((n : ℚ) - 1)⌋ + 1 : ℤ) =
        ⌊(e - s : ℚ) / ((n : ℚ) - 1) + 1⌋ by rw [Int.floor_add_one]]
      rw [Int.le_floor]
      push_cast
      linarith
    have hceil : ⌊(e - s : ℚ) / ((n : ℚ) - 1)⌋ + 1 ≤ ⌈(e - s : ℚ) / ((n : ℚ) - 1)⌉ := by
      by_contra hcon
      rw [not_le] at hcon
      have heq : (e - s : ℚ) / ((n : ℚ) - 1) = (⌊(e - s : ℚ) / ((n : ℚ) - 1)⌋ : ℚ) := by
        have hl := Int.floor_le ((e - s : ℚ) / ((n : ℚ) - 1))
        have hr := Int.le_ceil ((e - s : ℚ) / ((n : ℚ) - 1))
        have hcc : (⌈(e - s : ℚ) / ((n : ℚ) - 1)⌉ : ℚ) ≤
            (⌊(e - s : ℚ) / ((n : ℚ) - 1)⌋ : ℚ) := by
          exact_mod_cast Int.lt_add_one_iff.mp hcon
        linarith
      apply hd
      refine ⟨⌊(e - s : ℚ) / ((n : ℚ) - 1)⌋, ?_⟩
      have hmul : ((e : ℚ) - s) = (⌊(e - s : ℚ) / ((n : ℚ) - 1)⌋ : ℚ) * ((n : ℚ) - 1) := by
        rw [← heq]
        rw [div_mul_cancel₀ _ hn1]
      have : ((e - s : ℤ) : ℚ) =
          (((n - 1) * ⌊(e - s : ℚ) / ((n : ℚ) - 1)⌋ : ℤ) : ℚ) := by
        push_cast
        linarith
      exact_mod_cast this
    omega

/-! ### Lemmas about distribute_birth_years -/

theorem distribute_length (s e n : ℤ) :
    (distribute_birth_years s e n).length = (max n 0).toNat := by
  unfold distribute_birth_years
  split
  · simp only [List.length_nil]
    omega
  · split
    · simp only [List.length_singleton]
      omega
    · rw [List.length_map, List.length_range]
      omega

theorem distribute_getD (s e n : ℤ) (h2 : 2 ≤ n) (i : ℕ) (hi : i < n.toNat) :
    (distribute_birth_years s e n).getD i 0 =
      min e (max s (pyRound ((s : ℚ) + (i : ℚ) * ((e - s : ℚ) / ((n : ℚ) - 1))))) := by
  unfold distribute_birth_years
  rw [if_neg (by omega), if_neg (by omega)]
  rw [List.getD_eq_getElem _ _ (by rw [List.length_map, List.length_range]; exact hi)]
  rw [List.getElem_map, List.getElem_range]

theorem distribute_mem (s e n : ℤ) (hse : s ≤ e) :
    ∀ y ∈ distribute_birth_years s e n, s ≤ y ∧ y ≤ e := by
  have hseQ : (s : ℚ) ≤ (e : ℚ) := by exact_mod_cast hse
  intro y hy
  unfold distribute_birth_years at hy
  split at hy
  · simp at hy
  · split at hy
    · simp at hy
      subst hy
      refine pyRound_mem ?_ ?_ <;> linarith
    · simp at hy
      obtain ⟨i, _, rfl⟩ := hy
      omega

/-- C5: `distribute_birth_years(start, end, count)` returns exactly
`max(count, 0)` values, each within `[start, end]`, non-decreasing with
adjacent gaps bounded by `ceil((end-start)/(count-1))`; for `count = 1`
it returns exactly the rounded midpoint, and `[]` for `count ≤ 0`. -/
theorem claim_C5_distribute_birth_years (s e n : ℤ) (hse : s ≤ e) :
    (distribute_birth_years s e n).length = (max n 0).toNat ∧
    (∀ y ∈ distribute_birth_years s e n, s ≤ y ∧ y ≤ e) ∧
    (∀ i : ℕ, i + 1 < (distribute_birth_years s e n).length →
      (distribute_birth_years s e n).getD i 0 ≤
          (distribute_birth_years s e n).getD (i + 1) 0 ∧
        (distribute_birth_years s e n).getD (i + 1) 0 -
            (distribute_birth_years s e n).getD i 0 ≤
          ⌈(e - s : ℚ) / ((n : ℚ) - 1)⌉) ∧
    (n = 1 → distribute_birth_years s e n = [pyRound ((s + e : ℚ) / 2)]) ∧
    (n ≤ 0 → distribute_birth_years s e n = []) := by
  refine ⟨distribute_length s e n, distribute_mem s e n hse, ?_, ?_, ?_⟩
  · intro i hi
    have hlen := distribute_length s e n
    have h2 : 2 ≤ n := by omega
    have hiN : i < n.toNat := by omega
    have hi1N : i + 1 < n.toNat := by omega
    rw [distribute_getD s e n h2 i hiN, distribute_getD s e n h2 (i + 1) hi1N]
    rw [show (((i + 1 : ℕ)) : ℚ) = (i : ℚ) + 1 by push_cast; ring]
    have hν0 : (0 : ℚ) ≤ (e - s : ℚ) / ((n : ℚ) - 1) := by
      apply div_nonneg
      · have : (s : ℚ) ≤ (e : ℚ) := by exact_mod_cast hse
        linarith
      · have : (2 : ℚ) ≤ (n : ℚ) := by exact_mod_cast h2
        linarith
    have hmono : pyRound ((s : ℚ) + (i : ℚ) * ((e - s : ℚ) / ((n : ℚ) - 1))) ≤
        pyRound ((s : ℚ) + ((i : ℚ) + 1) * ((e - s : ℚ) / ((n : ℚ) - 1))) := by
      apply pyRound_mono
      nlinarith [hν0]
    have hgap := pyRound_grid_gap s e n i h2
    constructor
    · omega
    · omega
  · intro h1
    subst h1
    simp [distribute_birth_years]
  · intro h0
    unfold distribute_birth_years
    rw [if_pos h0]

/-- Witness for C5 at the concrete call `distribute_birth_years 1975 1995 3`. -/
theorem claim_C5_witness :
    (distribute_birth_years 1975 1995 3).length = ((max 3 0 : ℤ)).toNat :=
  (claim_C5_distribute_birth_years 1975 1995 3 (by decide)).1

/-! ### Randint and weighted-choice lemmas -/

theorem pyRandint_isSome {a b : ℤ} (h : a ≤ b) (o : List ℚ) :
    (pyRandint a b o).isSome := by
  unfold pyRandint
  rw [if_neg (by omega)]
  rfl

theorem pyRandint_bounds {a b r : ℤ} {o o' : List ℚ}
    (h : pyRandint a b o = some (r, o')) : a ≤ r ∧ r ≤ b := by
  unfold pyRandint at h
  split at h
  · exact absurd h (by simp)
  · rename_i hba
    rw [not_lt] at hba
    have hmod : ((⌊o.headD 0⌋).natAbs % (b - a + 1).toNat : ℕ) < (b - a + 1).toNat :=
      Nat.mod_lt _ (by omega)
    simp only [Option.some.injEq, Prod.mk.injEq] at h
    omega

theorem pickByWeight_mem (choices : List (String × ℚ)) (t : ℚ)
    (h : choices ≠ []) : pickByWeight choices t ∈ choices.map Prod.fst := by
  induction choices, t using pickByWeight.induct with
  | case1 t => exact absurd rfl h
  | case2 x t => simp [pickByWeight]
  | case3 x y rest t hlt => simp [pickByWeight, hlt]
  | case4 x y rest t hlt ih =>
    rw [pickByWeight, if_neg hlt]
    simp only [List.map_cons, List.mem_cons]
    right
    simpa using ih (by simp)

theorem pyChoices_none (choices : List (String × ℚ)) (o : List ℚ)
    (h : choices = [] ∨ (choices.map Prod.snd).sum ≤ 0) :
    pyChoices choices o = none := by
  unfold pyChoices
  rw [if_pos]
  rcases h with h | h
  · left
    simp [h]
  · right
    exact h

theorem pyChoices_some (choices : List (String × ℚ)) (o : List ℚ)
    (hne : choices ≠ []) (hpos : 0 < (choices.map Prod.snd).sum) :
    pyChoices choices o =
      some (pickByWeight choices ((pyRandom o).1 * (choices.map Prod.snd).sum),
        (pyRandom o).2) := by
  unfold pyChoices
  rw [if_neg]
  push_neg
  constructor
  · simpa [List.isEmpty_iff] using hne
  · linarith

/-! ### Clamp lemmas -/

theorem clamp_year_bounds (y : ℤ) :
    1950 ≤ clamp_year_to_data y ∧ clamp_year_to_data y ≤ 2129 := by
  unfold clamp_year_to_data
  split
  · omega
  · split <;> omega

theorem clamp_year_eq_self {y : ℤ} (h1 : 1950 ≤ y) (h2 : y ≤ 2129) :
    clamp_year_to_data y = y := by
  unfold clamp_year_to_data
  rw [if_neg (by omega), if_neg (by omega)]

/-! ### Claim C4 -/

/-- C4 counterexample: a non-empty all-zero weight list makes both
`_weighted_pick` and `weighted_choice` raise (`random.choices`
`ValueError`), and `weighted_choice` also raises on the empty list,
instead of returning the "Unknown" placeholder. -/
theorem claim_C4_counterexample :
    weighted_pick [("Ann", 0)] [] = none ∧ weighted_choice [] [] = none := by
  constructor <;> with_unfolding_all decide

/-- C4 (amended): only `_weighted_pick` on the exactly-empty list returns
the deterministic "Unknown"; a non-empty list with non-positive weight
total raises in both implementations, and `weighted_choice` raises on
the empty list; for positive total weight both return an element of the
input list. -/
theorem claim_C4_weighted_selection (choices : List (String × ℚ)) (o : List ℚ) :
    (weighted_pick [] o = some ("Unknown", o)) ∧
    (choices ≠ [] → (choices.map Prod.snd).sum ≤ 0 →
      weighted_pick choices o = none) ∧
    (weighted_choice [] o = none) ∧
    (choices ≠ [] → 0 < (choices.map Prod.snd).sum →
      (weighted_choice choices o).isSome ∧
      ∀ x o', weighted_choice choices o = some (x, o') →
        x ∈ choices.map Prod.fst ∧ weighted_pick choices o = some (x, o')) := by
  refine ⟨by simp [weighted_pick], ?_, ?_, ?_⟩
  · intro hne hz
    unfold weighted_pick
    rw [if_neg (by simpa [List.isEmpty_iff] using hne)]
    exact pyChoices_none choices o (Or.inr hz)
  · unfold weighted_choice
    exact pyChoices_none [] o (Or.inl rfl)
  · intro hne hpos
    have hc := pyChoices_some choices o hne hpos
    constructor
    · unfold weighted_choice
      rw [hc]
      rfl
    · intro x o' hx
      unfold weighted_choice at hx
      rw [hc] at hx
      simp only [Option.some.injEq, Prod.mk.injEq] at hx
      obtain ⟨hx1, hx2⟩ := hx
      subst hx1
      subst hx2
      refine ⟨pickByWeight_mem choices _ hne, ?_⟩
      unfold weighted_pick
      rw [if_neg (by simpa [List.isEmpty_iff] using hne)]
      exact hc

/-- Witness for C4 at concrete inputs. -/
theorem claim_C4_witness :
    weighted_pick [] [] = some ("Unknown", []) ∧
      weighted_pick [("Ann", 0)] [] = none ∧
      (weighted_choice [("Ann", 1)] [0]).isSome :=
  ⟨(claim_C4_weighted_selection [] []).1,
   (claim_C4_weighted_selection [("Ann", 0)] []).2.1 (by simp)
     (by with_unfolding_all decide),
   ((claim_C4_weighted_selection [("Ann", 1)] [0]).2.2.2 (by simp)
     (by with_unfolding_all decide)).1⟩

/-! ### Claim C6 -/

/-- C6 counterexample: for birth_rate 0 (a value below 0.5),
FamilyTree.py computes `min_children = ceil(0 - 1.5) = -1` rather than
`max(0, ceil(0 - 1.5)) = 0`, and the uniform draw over the resulting
range `[-1, 2]` can yield the negative child count `-1`. -/
theorem claim_C6_counterexample :
    minChildrenFT 0 = -1 ∧ max 0 ⌈(0 : ℚ) - 3/2⌉ = 0 ∧
      pyRandint (minChildrenFT 0) (maxChildrenOf 0) [0] = some (-1, []) := by
  refine ⟨?_, ?_, ?_⟩ <;> with_unfolding_all decide

/-- C6 (amended): in both implementations the draw range is well-formed
(`min_children ≤ max_children` in FamilyTree.py for every birth rate,
and for the AI variant whenever birth rate ≥ 0), so the draw cannot
fail; the AI variant clamps `min_children` to ≥ 0 and never draws a
negative count, while FamilyTree.py omits the clamp, and a negative
drawn count materializes no children. -/
theorem claim_C6_child_count_range (br : ℚ) (o : List ℚ) :
    minChildrenFT br ≤ maxChildrenOf br ∧
    (pyRandint (minChildrenFT br) (maxChildrenOf br) o).isSome ∧
    minChildrenAI br = max 0 (minChildrenFT br) ∧
    0 ≤ minChildrenAI br ∧
    (0 ≤ br → (pyRandint (minChildrenAI br) (maxChildrenOf br) o).isSome) ∧
    (∀ n o', pyRandint (minChildrenAI br) (maxChildrenOf br) o = some (n, o') →
      0 ≤ n) ∧
    (∀ s e n : ℤ, n < 0 → distribute_birth_years s e n = []) := by
  have hceil : minChildrenFT br ≤ maxChildrenOf br := by
    unfold minChildrenFT maxChildrenOf
    apply Int.ceil_le_ceil
    linarith
  have hmax2 : 0 ≤ br → 2 ≤ maxChildrenOf br := by
    intro h
    unfold maxChildrenOf
    have h1 : (1 : ℤ) < ⌈br + 3/2⌉ := by
      rw [Int.lt_ceil]
      push_cast
      linarith
    omega
  refine ⟨hceil, pyRandint_isSome hceil o, rfl, by unfold minChildrenAI; omega, ?_, ?_, ?_⟩
  · intro h
    apply pyRandint_isSome
    have := hmax2 h
    unfold minChildrenAI minChildrenFT at *
    unfold maxChildrenOf at *
    omega
  · intro n o' h
    have := (pyRandint_bounds h).1
    unfold minChildrenAI at this
    omega
  · intro s e n h
    unfold distribute_birth_years
    rw [if_pos (by omega)]

/-- Witness for C6 at the concrete birth rate 2. -/
theorem claim_C6_witness :
    minChildrenFT 2 ≤ maxChildrenOf 2 ∧
      (pyRandint (minChildrenAI 2) (maxChildrenOf 2) [0]).isSome ∧
      distribute_birth_years 1975 1995 (-1) = [] :=
  ⟨(claim_C6_child_count_range 2 [0]).1,
   (claim_C6_child_count_range 2 [0]).2.2.2.2.1 (by norm_num),
   (claim_C6_child_count_range 2 [0]).2.2.2.2.2.2 1975 1995 (-1) (by norm_num)⟩

/-! ### Claim C3 -/

/-- C3 counterexample: the decade key "1950s" lies in the clamped range
[1950s, 2120s] but is absent from the loaded birth-rate table;
the raw dict indexing in FamilyTree.py raises KeyError, aborting generation
mid-run instead of using any fallback value. -/
theorem claim_C3_counterexample :
    dictGet fC3.birth_rate_by_decade "1950s" = none ∧
      generateFamilyTree fC3 10 [0, 0] = RunResult.err := by
  constructor <;> with_unfolding_all decide

/-- C3 (amended): the AI-variant getters never fail — they return the
stored value, or the documented defaults 2.0 / 0.5 / 80.0 when the
decade key is missing from the loaded table; the direct
dict indexing instead aborts generation on a missing decade key. -/
theorem claim_C3_rate_lookup_defaults (b m l : List (String × ℚ)) (d : String) :
    (dictGet b d = none → get_birth_rate b d = 2) ∧
    (dictGet m d = none → get_marriage_rate m d = 1/2) ∧
    (dictGet l d = none → get_life_expectancy l d = 80) ∧
    (∀ v, dictGet b d = some v → get_birth_rate b d = v) ∧
    (∀ v, dictGet m d = some v → get_marriage_rate m d = v) ∧
    (∀ v, dictGet l d = some v → get_life_expectancy l d = v) := by
  unfold get_birth_rate get_marriage_rate get_life_expectancy
  refine ⟨fun h => by rw [h]; rfl, fun h => by rw [h]; rfl, fun h => by rw [h]; rfl,
    fun v h => by rw [h]; rfl, fun v h => by rw [h]; rfl, fun v h => by rw [h]; rfl⟩

/-- Witness for C3 defaults at the uncovered decade key "2120s". -/
theorem claim_C3_witness :
    get_birth_rate [] "2120s" = 2 ∧ get_marriage_rate [] "2120s" = 1/2 ∧
      get_life_expectancy [] "2120s" = 80 :=
  ⟨(claim_C3_rate_lookup_defaults [] [] [] "2120s").1 rfl,
   (claim_C3_rate_lookup_defaults [] [] [] "2120s").2.1 rfl,
   (claim_C3_rate_lookup_defaults [] [] [] "2120s").2.2.1 rfl⟩

/-! ### Claim C8 -/

/-- C8: every Person produced by `get_person` satisfies
`year_died > year_born`, provided the looked-up life expectancy for the
clamped birth decade is at least 11 (death year = birth year + life
expectancy + uniform noise in [-10, 10], truncated). -/
theorem claim_C8_get_person_lifespan (f : Factory) (y : ℤ) (o : List ℚ)
    (le : ℚ) (p : Person) (o' : List ℚ)
    (hle : dictGet f.life_expectancy_by_decade
      (decadeStr (clamp_year_to_data y)) = some le)
    (h11 : 11 ≤ le)
    (hp : getPerson f y o = some (p, o')) :
    p.year_born < p.year_died := by
  unfold getPerson at hp
  split at hp
  · exact absurd hp (by simp)
  · split at hp
    · exact absurd hp (by simp)
    · split at hp
      · exact absurd hp (by simp)
      · split at hp
        · exact absurd hp (by simp)
        · rename_i lev hdicteq _xr v o3 hv
          rw [hle] at hdicteq
          injection hdicteq with hdicteq
          subst hdicteq
          have hvb := pyRandint_bounds hv
          simp only [Option.some.injEq, Prod.mk.injEq] at hp
          obtain ⟨hp1, _⟩ := hp
          subst hp1
          simp only
          have hcl := clamp_year_bounds y
          have harg : ((clamp_year_to_data y : ℤ) : ℚ) + 1 ≤
              (clamp_year_to_data y : ℤ) + le + (v : ℚ) := by
            have hv10 : ((-10 : ℤ) : ℚ) ≤ (v : ℚ) := by exact_mod_cast hvb.1
            push_cast at hv10 ⊢
            linarith
          unfold pyInt
          have hclQ : (1950 : ℚ) ≤ ((clamp_year_to_data y : ℤ) : ℚ) := by
            exact_mod_cast hcl.1
          rw [if_neg (by linarith)]
          have := Int.le_floor.mpr (by push_cast at harg ⊢; linarith :
            (((clamp_year_to_data y + 1 : ℤ) : ℚ)) ≤
              (clamp_year_to_data y : ℤ) + le + (v : ℚ))
          omega

/-- Witness for C8 at a concrete generated person. -/
theorem claim_C8_witness : pW8.year_born < pW8.year_died :=
  claim_C8_get_person_lifespan fW8 1980 [0, 0, 0] 80 pW8 []
    (by with_unfolding_all decide) (by norm_num) (by with_unfolding_all decide)

/-! ### Registry bookkeeping: the step functions never change the
identity-relevant fields of existing entries (provenance, years, names,
spouse), only `children` lists, and only append new entries. -/

theorem addChildLinks_length (reg : Registry) (i c : ℕ) :
    (addChildLinks reg i c).length = reg.length := by
  unfold addChildLinks
  split
  · rfl
  · split
    · rw [List.length_set]
    · split
      · rw [List.length_set]
      · rw [List.length_set, List.length_set]

/-- Overwriting an entry with a core-equal person leaves all mapped
cores unchanged. -/
theorem set_core (l : Registry) (k : ℕ) (qv : Prov) (q q' : Person)
    (hk : l[k]? = some (qv, q)) (hcore : pcore (qv, q') = pcore (qv, q)) :
    ∀ m : ℕ, ((l.set k (qv, q'))[m]?).map pcore = (l[m]?).map pcore := by
  intro m
  rw [List.getElem?_set]
  split
  · rename_i hkm
    subst hkm
    split
    · rw [hk]
      exact congrArg some hcore
    · rw [List.getElem?_eq_none (by omega)] at hk
      exact Option.noConfusion hk
  · rfl

theorem addChildLinks_core (reg : Registry) (i c j : ℕ) :
    ((addChildLinks reg i c)[j]?).map pcore = (reg[j]?).map pcore := by
  unfold addChildLinks
  split
  · rfl
  · rename_i pv p hget
    split
    · exact set_core reg i pv p { p with children := p.children ++ [c] } hget rfl j
    · rename_i js hsp
      split
      · exact set_core reg i pv p { p with children := p.children ++ [c] } hget rfl j
      · rename_i qv q hq
        rw [set_core _ js qv q { q with children := q.children ++ [c] } hq rfl j]
        exact set_core reg i pv p { p with children := p.children ++ [c] } hget rfl j

theorem getPerson_fields (f : Factory) (y : ℤ) (o : List ℚ) (p : Person)
    (o' : List ℚ) (hp : getPerson f y o = some (p, o')) :
    p.year_born = clamp_year_to_data y ∧ p.spouse = none := by
  unfold getPerson at hp
  split at hp
  · exact absurd hp (by simp)
  · split at hp
    · exact absurd hp (by simp)
    · split at hp
      · exact absurd hp (by simp)
      · split at hp
        · exact absurd hp (by simp)
        · simp only [Option.some.injEq, Prod.mk.injEq] at hp
          obtain ⟨h1, _⟩ := hp
          subst h1
          exact ⟨rfl, rfl⟩

theorem dictGet_mem {tbl : List (String × ℚ)} {d : String} {v : ℚ}
    (h : dictGet tbl d = some v) : (d, v) ∈ tbl := by
  induction tbl with
  | nil => exact absurd h (by simp [dictGet])
  | cons kv rest ih =>
    obtain ⟨k, w⟩ := kv
    rw [show dictGet ((k, w) :: rest) d = if k = d then some w else dictGet rest d
      from rfl] at h
    split at h
    · rename_i hk
      injection h with h
      subst h
      subst hk
      exact List.mem_cons_self _ _
    · exact List.mem_cons_of_mem _ (ih h)

theorem le_foldr_max {a : ℕ} : ∀ {l : List ℕ}, a ∈ l → a ≤ l.foldr max 0 := by
  intro l
  induction l with
  | nil => intro h; exact absurd h (by simp)
  | cons b rest ih =>
    intro h
    rw [List.foldr_cons]
    rcases List.mem_cons.mp h with h | h
    · subst h
      exact le_max_left _ _
    · exact le_trans (ih h) (le_max_right _ _)

theorem Kn_bound {f : Factory} {d : String} {br : ℚ}
    (h : dictGet f.birth_rate_by_decade d = some br) :
    (maxChildrenOf br).toNat ≤ Kn f := by
  unfold Kn
  apply le_foldr_max
  rw [List.mem_map]
  exact ⟨(d, br), dictGet_mem h, rfl⟩

theorem NewChild_core {years : List ℤ} {e e' : Prov × Person}
    (hc : pcore e' = pcore e) (h : NewChild years e) : NewChild years e' := by
  obtain ⟨h1, h2, h3, h4, h5⟩ := h
  unfold pcore at hc
  simp only [Prod.mk.injEq] at hc
  obtain ⟨c1, c2, _, _, c5, c6⟩ := hc
  refine ⟨c1.trans h1, c6.trans h2, ?_, ?_, ?_⟩
  · rw [c5]
    exact h3
  · rw [c2]
    exact h4
  · rw [c2]
    exact h5

theorem NewChild_cons {y : ℤ} {ys : List ℤ} {e : Prov × Person}
    (h : NewChild ys e) : NewChild (y :: ys) e :=
  ⟨h.1, h.2.1, h.2.2.1, List.mem_cons_of_mem _ h.2.2.2.1, h.2.2.2.2⟩

/-- Complete description of one run of the child-materialization loop:
the registry only grows, existing entries keep their core fields, all
new entries are children satisfying `NewChild`, and the enqueued indices
are exactly old-queue entries or fresh indices, at most one per
distributed year. -/
theorem childLoop_spec (f : Factory) (i : ℕ) :
    ∀ (years : List ℤ) (reg : Registry) (acc : List ℕ) (o : List ℚ)
      (reg' : Registry) (q' : List ℕ) (o' : List ℚ),
      (∀ y ∈ years, 1950 ≤ y) →
      childLoop f reg i acc years o = some (reg', q', o') →
      reg.length ≤ reg'.length ∧
      (∀ j : ℕ, (reg'[j]?).map pcore = (reg[j]?).map pcore ∨
        (reg.length ≤ j ∧ ∃ e, reg'[j]? = some e ∧ NewChild years e)) ∧
      (∀ c ∈ q', c ∈ acc ∨ (reg.length ≤ c ∧ c < reg'.length)) ∧
      q'.length ≤ acc.length + years.length := by
  intro years
  induction years with
  | nil =>
    intro reg acc o reg' q' o' _ h
    simp only [childLoop, Option.some.injEq, Prod.mk.injEq] at h
    obtain ⟨rfl, rfl, rfl⟩ := h
    exact ⟨le_refl _, fun j => Or.inl rfl, fun c hc => Or.inl hc, by simp⟩
  | cons y ys ih =>
    intro reg acc o reg' q' o' hys h
    simp only [childLoop] at h
    split at h
    · have hrec := ih reg acc o reg' q' o'
        (fun z hz => hys z (List.mem_cons_of_mem _ hz)) h
      obtain ⟨l1, l2, l3, l4⟩ := hrec
      refine ⟨l1, fun j => ?_, l3, ?_⟩
      · rcases l2 j with h2 | ⟨h2a, e, h2b, h2c⟩
        · exact Or.inl h2
        · exact Or.inr ⟨h2a, e, h2b, NewChild_cons h2c⟩
      · simp only [List.length_cons]
        omega
    · split at h
      · exact absurd h (by simp)
      · rename_i c o1 hgp
        split at h
        · exact absurd h (by simp)
        · rename_i k o2 hk
          have hgpf := getPerson_fields f y o c o1 hgp
          have hy2120 : y ≤ 2120 := by omega
          have hy1950 : 1950 ≤ y := hys y (List.mem_cons_self _ _)
          have hclampy : clamp_year_to_data y = y :=
            clamp_year_eq_self hy1950 (by omega)
          have hcy : c.year_born = y := by rw [hgpf.1, hclampy]
          have hlenA : (addChildLinks reg i reg.length).length = reg.length :=
            addChildLinks_length reg i reg.length
          have hlenB : (addChildLinks reg i reg.length ++
              [(Prov.child,
                { c with last_name := if k = 0 then "Jones" else "Smith" })]).length =
              reg.length + 1 := by
            rw [List.length_append, hlenA]
            rfl
          have hNC : NewChild (y :: ys)
              (Prov.child,
                { c with last_name := if k = 0 then "Jones" else "Smith" }) := by
            refine ⟨rfl, hgpf.2, ?_, ?_, ?_⟩
            · by_cases hk0 : k = 0
              · left
                simp [hk0]
              · right
                simp [hk0]
            · simp only [hcy]
              exact List.mem_cons_self _ _
            · simp only [hcy]
              exact hy2120
          have hrec := ih _ (acc ++ [reg.length]) o2 reg' q' o'
            (fun z hz => hys z (List.mem_cons_of_mem _ hz)) h
          obtain ⟨l1, l2, l3, l4⟩ := hrec
          refine ⟨by omega, fun j => ?_, fun d hd => ?_, ?_⟩
          · rcases l2 j with h2 | ⟨h2a, e, h2b, h2c⟩
            · by_cases hj : j < reg.length
              · left
                rw [h2]
                rw [List.getElem?_append_left (by omega)]
                exact addChildLinks_core reg i reg.length j
              · by_cases hj2 : j = reg.length
                · right
                  have hBj : (addChildLinks reg i reg.length ++
                      [(Prov.child,
                        { c with last_name := if k = 0 then "Jones" else "Smith" })])[j]? =
                      some (Prov.child,
                        { c with last_name := if k = 0 then "Jones" else "Smith" }) := by
                    rw [List.getElem?_append_right (by omega)]
                    rw [hlenA, hj2, Nat.sub_self]
                    rfl
                  have h2' : (reg'[j]?).map pcore = some (pcore (Prov.child,
                      { c with last_name := if k = 0 then "Jones" else "Smith" })) := by
                    rw [h2, hBj]
                    rfl
                  obtain ⟨e, he, hec⟩ := Option.map_eq_some'.mp h2'
                  exact ⟨by omega, e, he, NewChild_core hec hNC⟩
                · left
                  rw [h2]
                  rw [List.getElem?_eq_none (by omega),
                    List.getElem?_eq_none (by omega)]
            · exact Or.inr ⟨by omega, e, h2b, NewChild_cons h2c⟩
          · rcases l3 d hd with h3 | ⟨h3a, h3b⟩
            · rcases List.mem_append.mp h3 with h4 | h4
              · exact Or.inl h4
              · right
                rw [List.mem_singleton] at h4
                subst h4
                exact ⟨le_refl _, by omega⟩
            · exact Or.inr ⟨by omega, h3b⟩
          · simp only [List.length_append, List.length_cons, List.length_nil] at l4 ⊢
            omega

theorem clamp_year_lower {y0 d : ℤ} (hy2 : y0 ≤ 2120) (hd : -10 ≤ d) :
    y0 - 10 ≤ clamp_year_to_data (y0 + d) := by
  unfold clamp_year_to_data
  split
  · omega
  · split <;> omega

/-- Effect of the marriage step: either the registry is unchanged, or
the dequeued person had no spouse and a single spouse entry born within
the clamp range and within 10 years below the person is appended, with
the two spouse references linked symmetrically. -/
theorem marriageStep_spec (f : Factory) (reg : Registry) (i : ℕ) (o : List ℚ)
    (reg' : Registry) (o' : List ℚ) (pv : Prov) (p : Person)
    (hget : reg[i]? = some (pv, p)) (hy2 : p.year_born ≤ 2120)
    (h : marriageStep f reg i o = some (reg', o')) :
    reg' = reg ∨
    (p.spouse = none ∧ ∃ sp : Person,
      reg' = reg.set i (pv, { p with spouse := some reg.length }) ++
        [(Prov.spouse, sp)] ∧
      sp.spouse = some i ∧ 1950 ≤ sp.year_born ∧ sp.year_born ≤ 2129 ∧
      p.year_born - 10 ≤ sp.year_born) := by
  unfold marriageStep at h
  split at h
  · exact absurd h (by simp)
  · rename_i pv2 p2 hget2
    rw [hget] at hget2
    injection hget2 with hget2
    injection hget2 with e1 e2
    subst e1
    subst e2
    split at h
    · simp only [Option.some.injEq, Prod.mk.injEq] at h
      exact Or.inl h.1.symm
    · rename_i hspn
      split at h
      · exact absurd h (by simp)
      · split at h
        · split at h
          · exact absurd h (by simp)
          · rename_i d o2 hd
            split at h
            · exact absurd h (by simp)
            · rename_i sp0 o3 hsp0
              simp only [Option.some.injEq, Prod.mk.injEq] at h
              obtain ⟨h1, _⟩ := h
              have hf := getPerson_fields f (p.year_born + d) o2 sp0 o3 hsp0
              have hdb := pyRandint_bounds hd
              have hcb := clamp_year_bounds (p.year_born + d)
              refine Or.inr ⟨hspn, { sp0 with spouse := some i }, h1.symm, rfl,
                ?_, ?_, ?_⟩
              · simp only [hf.1]
                exact hcb.1
              · simp only [hf.1]
                exact hcb.2
              · simp only [hf.1]
                exact clamp_year_lower hy2 hdb.1
        · simp only [Option.some.injEq, Prod.mk.injEq] at h
          exact Or.inl h.1.symm

/-- Effect of the fertility and child steps: the registry only grows,
existing cores are unchanged, new entries are forced-surname children at
least 15 years younger than the dequeued person and no later than the
2120 cutoff, and the returned queue additions index exactly the new
entries, at most `Kn f` many. -/
theorem fertilityStep_spec (f : Factory) (reg : Registry) (i : ℕ)
    (o : List ℚ) (reg' : Registry) (newQ : List ℕ) (o' : List ℚ)
    (pv : Prov) (p : Person)
    (hget : reg[i]? = some (pv, p))
    (hy1 : 1950 ≤ p.year_born) (hy2 : p.year_born ≤ 2120)
    (hsp : ∀ j, p.spouse = some j →
      p.year_born - 10 ≤ yearAt reg j ∧ 1950 ≤ yearAt reg j)
    (h : fertilityStep f reg i o = some (reg', newQ, o')) :
    reg.length ≤ reg'.length ∧
    (∀ j : ℕ, (reg'[j]?).map pcore = (reg[j]?).map pcore ∨
      (reg.length ≤ j ∧ ∃ e, reg'[j]? = some e ∧ e.1 = Prov.child ∧
        e.2.spouse = none ∧
        (e.2.last_name = "Jones" ∨ e.2.last_name = "Smith") ∧
        1975 ≤ e.2.year_born ∧ p.year_born + 15 ≤ e.2.year_born ∧
        e.2.year_born ≤ 2120)) ∧
    (∀ c ∈ newQ, reg.length ≤ c ∧ c < reg'.length) ∧
    newQ.length ≤ Kn f := by
  unfold fertilityStep at h
  split at h
  · exact absurd h (by simp)
  · rename_i p2 hget2
    rw [hget] at hget2
    injection hget2 with hget2
    injection hget2 with e1 e2
    subst e2
    split at h
    · exact absurd h (by simp)
    · rename_i br hbr
      split at h
      · exact absurd h (by simp)
      · rename_i numC o1 hnum
        split at h
        · simp only [Option.some.injEq, Prod.mk.injEq] at h
          obtain ⟨h1, h2, _⟩ := h
          subst h1
          subst h2
          exact ⟨le_refl _, fun j => Or.inl rfl, fun c hc => absurd hc (by simp),
            by simp⟩
        · have hE : p.year_born - 10 ≤
              (match p.spouse with
                | some j => min p.year_born (yearAt reg j)
                | none => p.year_born) ∧
              1950 ≤ (match p.spouse with
                | some j => min p.year_born (yearAt reg j)
                | none => p.year_born) ∧
              (match p.spouse with
                | some j => min p.year_born (yearAt reg j)
                | none => p.year_born) ≤ p.year_born := by
            cases hps : p.spouse with
            | none =>
              show p.year_born - 10 ≤ p.year_born ∧ 1950 ≤ p.year_born ∧
                p.year_born ≤ p.year_born
              omega
            | some j =>
              have := hsp j hps
              show p.year_born - 10 ≤ min p.year_born (yearAt reg j) ∧
                1950 ≤ min p.year_born (yearAt reg j) ∧
                min p.year_born (yearAt reg j) ≤ p.year_born
              omega
          obtain ⟨hE1, hE2, hE3⟩ := hE
          have hysmem := distribute_mem
            ((match p.spouse with
              | some j => min p.year_born (yearAt reg j)
              | none => p.year_born) + 25)
            ((match p.spouse with
              | some j => min p.year_born (yearAt reg j)
              | none => p.year_born) + 45) numC (by omega)
          have hcl := childLoop_spec f i _ reg [] o1 reg' newQ o'
            (fun y hy => by have := hysmem y hy; omega) h
          obtain ⟨l1, l2, l3, l4⟩ := hcl
          refine ⟨l1, fun j => ?_, fun c hc => ?_, ?_⟩
          · rcases l2 j with h2 | ⟨h2a, e, h2b, h2c⟩
            · exact Or.inl h2
            · obtain ⟨n1, n2, n3, n4, n5⟩ := h2c
              have := hysmem _ n4
              exact Or.inr ⟨h2a, e, h2b, n1, n2, n3, by omega, by omega, n5⟩
          · rcases l3 c hc with h3 | h3
            · exact absurd h3 (by simp)
            · exact h3
          · have hnb := pyRandint_bounds hnum
            have hkb := Kn_bound hbr
            have hdl := distribute_length
              ((match p.spouse with
                | some j => min p.year_born (yearAt reg j)
                | none => p.year_born) + 25)
              ((match p.spouse with
                | some j => min p.year_born (yearAt reg j)
                | none => p.year_born) + 45) numC
            simp only [List.length_nil] at l4
            unfold maxChildrenOf at hkb
            unfold minChildrenFT maxChildrenOf at hnb
            omega

theorem getElem?_some_lt {reg : Registry} {j : ℕ} {e : Prov × Person}
    (h : reg[j]? = some e) : j < reg.length := by
  by_contra hc
  rw [List.getElem?_eq_none (by omega)] at h
  exact Option.noConfusion h

theorem core_fields {r1 r2 : Registry} {j : ℕ}
    (h : (r2[j]?).map pcore = (r1[j]?).map pcore) :
    yearAt r2 j = yearAt r1 j ∧ spouseAt r2 j = spouseAt r1 j := by
  unfold yearAt spouseAt
  cases h2 : r2[j]? with
  | none =>
    cases h1 : r1[j]? with
    | none => exact ⟨rfl, rfl⟩
    | some e1 =>
      rw [h1, h2] at h
      exact absurd h (by simp)
  | some e2 =>
    cases h1 : r1[j]? with
    | none =>
      rw [h1, h2] at h
      exact absurd h (by simp)
    | some e1 =>
      rw [h1, h2] at h
      have hc : pcore e2 = pcore e1 := by injection h
      unfold pcore at hc
      simp only [Prod.mk.injEq] at hc
      obtain ⟨_, c2, _, _, _, c6⟩ := hc
      constructor
      · show e2.2.year_born = e1.2.year_born
        exact c2
      · show e2.2.spouse = e1.2.spouse
        exact c6

theorem core_some {r1 r2 : Registry} {j : ℕ} {e : Prov × Person}
    (h : (r2[j]?).map pcore = (r1[j]?).map pcore) (he : r2[j]? = some e) :
    ∃ e1, r1[j]? = some e1 ∧ pcore e = pcore e1 := by
  rw [he] at h
  cases h1 : r1[j]? with
  | none =>
    rw [h1] at h
    exact absurd h (by simp)
  | some e1 =>
    rw [h1] at h
    exact ⟨e1, rfl, by injection h⟩

theorem set_append_get (reg : Registry) (i : ℕ) (a b : Prov × Person)
    (hi : i < reg.length) (j : ℕ) :
    (reg.set i a ++ [b])[j]? =
      if j = i then some a
      else if j = reg.length then some b
      else reg[j]? := by
  by_cases h1 : j = i
  · subst h1
    rw [if_pos rfl]
    rw [List.getElem?_append_left (by rw [List.length_set]; omega)]
    rw [List.getElem?_set, if_pos rfl, if_pos hi]
  · rw [if_neg h1]
    by_cases h2 : j = reg.length
    · subst h2
      rw [if_pos rfl]
      rw [List.getElem?_append_right (by rw [List.length_set])]
      rw [List.length_set, Nat.sub_self]
      rfl
    · rw [if_neg h2]
      by_cases h3 : j < reg.length
      · rw [List.getElem?_append_left (by rw [List.length_set]; omega)]
        rw [List.getElem?_set]
        rw [if_neg (by omega)]
      · rw [List.getElem?_append_right (by rw [List.length_set]; omega)]
        rw [List.getElem?_eq_none
          (by rw [List.length_singleton, List.length_set]; omega)]
        rw [List.getElem?_eq_none (by omega)]

theorem spouseAt_get {reg : Registry} {j : ℕ} {e : Prov × Person}
    (h : reg[j]? = some e) : spouseAt reg j = e.2.spouse := by
  unfold spouseAt
  rw [h]

theorem yearAt_get {reg : Registry} {j : ℕ} {e : Prov × Person}
    (h : reg[j]? = some e) : yearAt reg j = e.2.year_born := by
  unfold yearAt
  rw [h]
  rfl

theorem marriage_reginv (reg : Registry) (i : ℕ) (pv : Prov) (p sp : Person)
    (hget : reg[i]? = some (pv, p)) (hspn : p.spouse = none)
    (hsps : sp.spouse = some i) (hy1 : 1950 ≤ sp.year_born)
    (hy2 : sp.year_born ≤ 2129) (hreg : RegInv reg) :
    RegInv (reg.set i (pv, { p with spouse := some reg.length }) ++
      [(Prov.spouse, sp)]) := by
  have hi : i < reg.length := getElem?_some_lt hget
  have hmem : (pv, p) ∈ reg := List.mem_iff_getElem?.mpr ⟨i, hget⟩
  have hlen : (reg.set i (pv, { p with spouse := some reg.length }) ++
      [(Prov.spouse, sp)]).length = reg.length + 1 := by
    rw [List.length_append, List.length_set, List.length_singleton]
  have hS : ∀ j, spouseAt (reg.set i (pv, { p with spouse := some reg.length }) ++
      [(Prov.spouse, sp)]) j =
      if j = i then some reg.length
      else if j = reg.length then sp.spouse
      else spouseAt reg j := by
    intro j
    unfold spouseAt
    rw [set_append_get reg i _ _ hi j]
    split_ifs <;> rfl
  refine ⟨?_, ?_, ?_, ?_⟩
  · intro e he
    rw [List.mem_iff_getElem?] at he
    obtain ⟨j, hj⟩ := he
    rw [set_append_get reg i _ _ hi j] at hj
    split_ifs at hj with h1 h2
    · injection hj with hj
      subst hj
      exact hreg.ry (pv, p) hmem
    · injection hj with hj
      subst hj
      exact ⟨hy1, hy2⟩
    · exact hreg.ry e (List.mem_iff_getElem?.mpr ⟨j, hj⟩)
  · intro e he
    rw [List.mem_iff_getElem?] at he
    obtain ⟨j, hj⟩ := he
    rw [set_append_get reg i _ _ hi j] at hj
    split_ifs at hj with h1 h2
    · injection hj with hj
      subst hj
      exact hreg.rp (pv, p) hmem
    · injection hj with hj
      subst hj
      intro hne
      exact absurd rfl hne
    · exact hreg.rp e (List.mem_iff_getElem?.mpr ⟨j, hj⟩)
  · intro e he
    rw [List.mem_iff_getElem?] at he
    obtain ⟨j, hj⟩ := he
    rw [set_append_get reg i _ _ hi j] at hj
    split_ifs at hj with h1 h2
    · injection hj with hj
      subst hj
      exact hreg.rc (pv, p) hmem
    · injection hj with hj
      subst hj
      intro hc
      exact absurd hc (by simp)
    · exact hreg.rc e (List.mem_iff_getElem?.mpr ⟨j, hj⟩)
  · intro a b hab
    rw [hS a] at hab
    have hspi : spouseAt reg i = none := by
      rw [spouseAt_get hget]
      exact hspn
    split_ifs at hab with h1 h2
    · injection hab with hab
      subst hab
      subst h1
      refine ⟨by omega, ?_⟩
      rw [hS reg.length, if_neg (by omega), if_pos rfl]
      rw [hsps]
    · subst h2
      rw [hsps] at hab
      injection hab with hab
      subst hab
      refine ⟨by omega, ?_⟩
      rw [hS i, if_pos rfl]
    · have hold := hreg.rs a b hab
      refine ⟨by omega, ?_⟩
      rw [hS b]
      rw [if_neg ?_, if_neg (by omega)]
      · exact hold.2
      · intro hbi
        subst hbi
        rw [hspi] at hold
        exact Option.noConfusion hold.2

theorem pcore_fields {e e1 : Prov × Person} (h : pcore e = pcore e1) :
    e.1 = e1.1 ∧ e.2.year_born = e1.2.year_born ∧
    e.2.last_name = e1.2.last_name ∧ e.2.spouse = e1.2.spouse := by
  unfold pcore at h
  simp only [Prod.mk.injEq] at h
  exact ⟨h.1, h.2.1, h.2.2.2.2.1, h.2.2.2.2.2⟩

theorem spouseAt_some_inv {reg : Registry} {a b : ℕ}
    (h : spouseAt reg a = some b) :
    ∃ e, reg[a]? = some e ∧ e.2.spouse = some b := by
  unfold spouseAt at h
  cases ha : reg[a]? with
  | none =>
    rw [ha] at h
    exact Option.noConfusion h
  | some e =>
    rw [ha] at h
    exact ⟨e, rfl, h⟩

theorem fertility_reginv (reg1 reg2 : Registry)
    (hfacts : ∀ j : ℕ, (reg2[j]?).map pcore = (reg1[j]?).map pcore ∨
      (reg1.length ≤ j ∧ ∃ e, reg2[j]? = some e ∧ ChildEntry e))
    (hreg : RegInv reg1) : RegInv reg2 := by
  refine ⟨?_, ?_, ?_, ?_⟩
  · intro e he
    obtain ⟨j, hj⟩ := List.mem_iff_getElem?.mp he
    rcases hfacts j with hcp | ⟨_, e2, he2, hc⟩
    · obtain ⟨e1, he1, hec⟩ := core_some hcp hj
      have hy := (pcore_fields hec).2.1
      rw [hy]
      exact hreg.ry e1 (List.mem_iff_getElem?.mpr ⟨j, he1⟩)
    · rw [hj] at he2
      injection he2 with he2
      subst he2
      obtain ⟨_, _, _, h4, h5⟩ := hc
      omega
  · intro e he _
    obtain ⟨j, hj⟩ := List.mem_iff_getElem?.mp he
    rcases hfacts j with hcp | ⟨_, e2, he2, hc⟩
    · obtain ⟨e1, he1, hec⟩ := core_some hcp hj
      obtain ⟨hp, hy, _, _⟩ := pcore_fields hec
      rw [hy]
      apply hreg.rp e1 (List.mem_iff_getElem?.mpr ⟨j, he1⟩)
      rw [← hp]
      assumption
    · rw [hj] at he2
      injection he2 with he2
      subst he2
      exact hc.2.2.2.2
  · intro e he hch
    obtain ⟨j, hj⟩ := List.mem_iff_getElem?.mp he
    rcases hfacts j with hcp | ⟨_, e2, he2, hc⟩
    · obtain ⟨e1, he1, hec⟩ := core_some hcp hj
      obtain ⟨hp, hy, hl, _⟩ := pcore_fields hec
      rw [hy, hl]
      exact hreg.rc e1 (List.mem_iff_getElem?.mpr ⟨j, he1⟩) (hp ▸ hch)
    · rw [hj] at he2
      injection he2 with he2
      subst he2
      exact ⟨hc.2.2.1, hc.2.2.2.1, hc.2.2.2.2⟩
  · intro a b hab
    obtain ⟨e, hea, hesp⟩ := spouseAt_some_inv hab
    rcases hfacts a with hcp | ⟨_, e2, he2, hc⟩
    · have hsp2 := (core_fields hcp).2
      rw [hsp2] at hab
      obtain ⟨hblt, hba⟩ := hreg.rs a b hab
      rcases hfacts b with hcpb | ⟨hbig, _, _, _⟩
      · have hsb : spouseAt reg2 b = some a := by
          rw [(core_fields hcpb).2]
          exact hba
        obtain ⟨eb, heb, _⟩ := spouseAt_some_inv hsb
        exact ⟨getElem?_some_lt heb, hsb⟩
      · omega
    · rw [hea] at he2
      injection he2 with he2
      subst he2
      rw [hc.2.1] at hesp
      exact Option.noConfusion hesp

/-- Assembles the post-marriage and post-fertility facts into the full
step conclusion, for any intermediate registry `reg1`. -/
theorem step_assemble (f : Factory) (reg reg1 reg2 : Registry)
    (rest newQ : List ℕ) (i : ℕ)
    (inv : Inv ⟨reg, i :: rest⟩)
    (hlen01 : reg.length ≤ reg1.length)
    (hY : ∀ j, j < reg.length → yearAt reg1 j = yearAt reg j)
    (hSP : ∀ c ∈ rest, ∀ j, spouseAt reg1 c = some j →
      yearAt reg1 c - 10 ≤ yearAt reg1 j)
    (hreg1 : RegInv reg1)
    (hlen12 : reg1.length ≤ reg2.length)
    (hcore : ∀ j : ℕ, (reg2[j]?).map pcore = (reg1[j]?).map pcore ∨
      (reg1.length ≤ j ∧ ∃ e, reg2[j]? = some e ∧ ChildEntry e ∧
        yearAt reg i + 15 ≤ e.2.year_born))
    (hq : ∀ c ∈ newQ, reg1.length ≤ c ∧ c < reg2.length)
    (hqlen : newQ.length ≤ Kn f) :
    Inv ⟨reg2, rest ++ newQ⟩ ∧
    (∀ j, j < reg.length → yearAt reg2 j = yearAt reg j) ∧
    reg.length ≤ reg2.length ∧
    newQ.length ≤ Kn f ∧
    (∀ c ∈ newQ, yearAt reg i + 15 ≤ yearAt reg2 c ∧ yearAt reg2 c ≤ 2120) := by
  have hcore1 : ∀ j, j < reg1.length →
      (reg2[j]?).map pcore = (reg1[j]?).map pcore := by
    intro j hj
    rcases hcore j with hc | ⟨hc, _⟩
    · exact hc
    · omega
  have hY2 : ∀ j, j < reg.length → yearAt reg2 j = yearAt reg j := by
    intro j hj
    rw [(core_fields (hcore1 j (by omega))).1]
    exact hY j hj
  have hnewQ : ∀ c ∈ newQ, ∃ e, reg2[c]? = some e ∧ ChildEntry e ∧
      yearAt reg i + 15 ≤ e.2.year_born := by
    intro c hc
    obtain ⟨hc1, hc2⟩ := hq c hc
    rcases hcore c with hcp | ⟨_, e, he, hce⟩
    · exfalso
      have hnone : (reg1[c]?) = none := List.getElem?_eq_none (by omega)
      rw [hnone] at hcp
      have : reg2[c]? = none := by
        cases h2 : reg2[c]? with
        | none => rfl
        | some e2 =>
          rw [h2] at hcp
          exact absurd hcp (by simp)
      rw [List.getElem?_eq_none_iff] at this
      omega
    · exact ⟨e, he, hce⟩
  have hnewY : ∀ c ∈ newQ, yearAt reg i + 15 ≤ yearAt reg2 c ∧
      yearAt reg2 c ≤ 2120 := by
    intro c hc
    obtain ⟨e, he, hce, hy15⟩ := hnewQ c hc
    rw [yearAt_get he]
    exact ⟨hy15, hce.2.2.2.2⟩
  have hreg2 : RegInv reg2 := by
    apply fertility_reginv reg1 reg2 ?_ hreg1
    intro j
    rcases hcore j with hc | ⟨hc1, e, he, hce, _⟩
    · exact Or.inl hc
    · exact Or.inr ⟨hc1, e, he, hce⟩
  refine ⟨⟨?_, ?_, ?_, hreg2⟩, hY2, by omega, hqlen, hnewY⟩
  · intro c hc
    rcases List.mem_append.mp hc with h | h
    · have := inv.qlt c (List.mem_cons_of_mem _ h)
      simp only at this ⊢
      omega
    · exact (hq c h).2
  · intro c hc
    rcases List.mem_append.mp hc with h | h
    · have h1 := inv.qlt c (List.mem_cons_of_mem _ h)
      have h2 := inv.qy c (List.mem_cons_of_mem _ h)
      simp only at h1 h2 ⊢
      rw [hY2 c h1]
      exact h2
    · exact (hnewY c h).2
  · intro c hc j hj
    rcases List.mem_append.mp hc with h | h
    · have h1 := inv.qlt c (List.mem_cons_of_mem _ h)
      simp only at h1 ⊢
      have hspc : spouseAt reg2 c = spouseAt reg1 c :=
        (core_fields (hcore1 c (by omega))).2
      rw [hspc] at hj
      have hb := hSP c h j hj
      have hjlt : j < reg1.length := (hreg1.rs c j hj).1
      have hyc : yearAt reg2 c = yearAt reg1 c :=
        (core_fields (hcore1 c (by omega))).1
      have hyj : yearAt reg2 j = yearAt reg1 j :=
        (core_fields (hcore1 j hjlt)).1
      rw [hyc, hyj]
      exact hb
    · obtain ⟨e, he, hce, _⟩ := hnewQ c h
      rw [spouseAt_get he, hce.2.1] at hj
      exact Option.noConfusion hj

/-- One loop iteration preserves the invariant; the queue gains at most
`Kn f` entries, each at least 15 years younger than the dequeued person
and within the 2120 cutoff, and existing years are unchanged. -/
theorem stepPerson_spec (f : Factory) (reg : Registry) (rest : List ℕ)
    (i : ℕ) (o : List ℚ) (s' : TreeState) (o' : List ℚ)
    (inv : Inv ⟨reg, i :: rest⟩)
    (h : stepPerson f ⟨reg, rest⟩ i o = some (s', o')) :
    Inv s' ∧
    (∀ j, j < reg.length → yearAt s'.registry j = yearAt reg j) ∧
    reg.length ≤ s'.registry.length ∧
    ∃ newQ : List ℕ, s'.queue = rest ++ newQ ∧ newQ.length ≤ Kn f ∧
      ∀ c ∈ newQ, yearAt reg i + 15 ≤ yearAt s'.registry c ∧
        yearAt s'.registry c ≤ 2120 := by
  have hiq : i ∈ i :: rest := List.mem_cons_self _ _
  have hilt : i < reg.length := inv.qlt i hiq
  obtain ⟨e0, hget0⟩ : ∃ e, reg[i]? = some e :=
    ⟨_, List.getElem?_eq_getElem hilt⟩
  obtain ⟨pv, p⟩ := e0
  have hyAt : yearAt reg i = p.year_born := yearAt_get hget0
  have hspAt : spouseAt reg i = p.spouse := spouseAt_get hget0
  have hy2120 : p.year_born ≤ 2120 := by
    have := inv.qy i hiq
    simp only at this
    omega
  have hmem : (pv, p) ∈ reg := List.mem_iff_getElem?.mpr ⟨i, hget0⟩
  have hy1950 : 1950 ≤ p.year_born := (inv.reginv.ry _ hmem).1
  unfold stepPerson at h
  split at h
  · exact absurd h (by simp)
  · rename_i reg1 o1 hm
    split at h
    · exact absurd h (by simp)
    · rename_i fout reg2 newQ o2 hf
      simp only [Option.some.injEq, Prod.mk.injEq] at h
      obtain ⟨h1, h2⟩ := h
      subst h2
      rcases marriageStep_spec f reg i o reg1 o1 pv p hget0 hy2120 hm with
        hA | ⟨hspn, sp, hBeq, hsps, hsp1, hsp2, hsp3⟩
      · -- no registry change in the marriage step
        subst hA
        have hsp' : ∀ j, p.spouse = some j →
            p.year_born - 10 ≤ yearAt reg1 j ∧ 1950 ≤ yearAt reg1 j := by
          intro j hj
          have hsj : spouseAt reg1 i = some j := by
            rw [hspAt]
            exact hj
          have hb := inv.qsp i hiq j hsj
          simp only at hb
          have hjlt : j < reg1.length := (inv.reginv.rs i j hsj).1
          obtain ⟨ej, hej⟩ : ∃ e, reg1[j]? = some e :=
            ⟨_, List.getElem?_eq_getElem hjlt⟩
          have hjm : ej ∈ reg1 := List.mem_iff_getElem?.mpr ⟨j, hej⟩
          have h19 := (inv.reginv.ry ej hjm).1
          rw [yearAt_get hej]
          rw [hyAt, yearAt_get hej] at hb
          omega
        have ff := fertilityStep_spec f reg1 i o1 reg2 newQ o2 pv p hget0
          hy1950 hy2120 hsp' hf
        obtain ⟨f1, f2, f3, f4⟩ := ff
        have ha := step_assemble f reg1 reg1 reg2 rest newQ i inv (le_refl _)
          (fun j _ => rfl)
          (fun c hc j hj => inv.qsp c (List.mem_cons_of_mem _ hc) j hj)
          inv.reginv f1
          (fun j => by
            rcases f2 j with hc | ⟨hc1, e, he, n1, n2, n3, n4, n5, n6⟩
            · exact Or.inl hc
            · refine Or.inr ⟨hc1, e, he, ⟨n1, n2, n3, n4, n6⟩, ?_⟩
              rw [hyAt]
              omega)
          f3 f4
        obtain ⟨a1, a2, a3, a4, a5⟩ := ha
        subst h1
        exact ⟨a1, a2, a3, newQ, rfl, a4, a5⟩
      · -- a spouse entry was appended
        have hlen1 : reg1.length = reg.length + 1 := by
          rw [hBeq, List.length_append, List.length_set, List.length_singleton]
        have hget1 : reg1[i]? = some (pv, { p with spouse := some reg.length }) := by
          rw [hBeq, set_append_get reg i _ _ hilt i, if_pos rfl]
        have hgetL : reg1[reg.length]? = some (Prov.spouse, sp) := by
          rw [hBeq, set_append_get reg i _ _ hilt reg.length,
            if_neg (by omega), if_pos rfl]
        have hY1 : ∀ j, j < reg.length → yearAt reg1 j = yearAt reg j := by
          intro j hj
          by_cases hji : j = i
          · subst hji
            rw [yearAt_get hget1, hyAt]
          · unfold yearAt
            rw [hBeq, set_append_get reg i _ _ hilt j, if_neg hji,
              if_neg (by omega)]
        have hreg1 : RegInv reg1 := by
          rw [hBeq]
          exact marriage_reginv reg i pv p sp hget0 hspn hsps hsp1 hsp2
            inv.reginv
        have hsp' : ∀ j, ({ p with spouse := some reg.length } : Person).spouse =
            some j → ({ p with spouse := some reg.length } : Person).year_born -
              10 ≤ yearAt reg1 j ∧ 1950 ≤ yearAt reg1 j := by
          intro j hj
          simp only [Option.some.injEq] at hj
          subst hj
          rw [yearAt_get hgetL]
          exact ⟨hsp3, hsp1⟩
        have ff := fertilityStep_spec f reg1 i o1 reg2 newQ o2 pv
          { p with spouse := some reg.length } hget1 hy1950 hy2120 hsp' hf
        obtain ⟨f1, f2, f3, f4⟩ := ff
        have hSP1 : ∀ c ∈ rest, ∀ j, spouseAt reg1 c = some j →
            yearAt reg1 c - 10 ≤ yearAt reg1 j := by
          intro c hc j hj
          have hclt : c < reg.length := inv.qlt c (List.mem_cons_of_mem _ hc)
          by_cases hci : c = i
          · subst hci
            rw [spouseAt_get hget1] at hj
            simp only [Option.some.injEq] at hj
            subst hj
            rw [yearAt_get hgetL, yearAt_get hget1]
            simp only
            omega
          · have hspc : spouseAt reg1 c = spouseAt reg c := by
              unfold spouseAt
              rw [hBeq, set_append_get reg i _ _ hilt c, if_neg hci,
                if_neg (by omega)]
            rw [hspc] at hj
            have hb := inv.qsp c (List.mem_cons_of_mem _ hc) j hj
            simp only at hb
            have hjlt : j < reg.length := (inv.reginv.rs c j hj).1
            rw [hY1 c hclt, hY1 j hjlt]
            exact hb
        have ha := step_assemble f reg reg1 reg2 rest newQ i inv (by omega)
          hY1 hSP1 hreg1 f1
          (fun j => by
            rcases f2 j with hc | ⟨hc1, e, he, n1, n2, n3, n4, n5, n6⟩
            · exact Or.inl hc
            · refine Or.inr ⟨hc1, e, he, ⟨n1, n2, n3, n4, n6⟩, ?_⟩
              rw [hyAt]
              simp only at n5
              omega)
          f3 f4
        obtain ⟨a1, a2, a3, a4, a5⟩ := ha
        subst h1
        exact ⟨a1, a2, a3, newQ, rfl, a4, a5⟩

theorem step_measure (f : Factory) (reg : Registry) (rest : List ℕ) (i : ℕ)
    (o : List ℚ) (s' : TreeState) (o' : List ℚ)
    (inv : Inv ⟨reg, i :: rest⟩)
    (h : stepPerson f ⟨reg, rest⟩ i o = some (s', o')) :
    queueMeasure (Kn f) s'.registry s'.queue <
      queueMeasure (Kn f) reg (i :: rest) := by
  obtain ⟨_, hY, _, newQ, hq, hqlen, hqy⟩ :=
    stepPerson_spec f reg rest i o s' o' inv h
  have hyi : yearAt reg i ≤ 2120 := by
    have := inv.qy i (List.mem_cons_self _ _)
    simpa using this
  unfold queueMeasure
  rw [hq, List.map_append, List.sum_append, List.map_cons, List.sum_cons]
  have hrest_eq : (rest.map fun j =>
      (Kn f + 1) ^ (2121 - yearAt s'.registry j).toNat) =
      rest.map fun j => (Kn f + 1) ^ (2121 - yearAt reg j).toNat := by
    apply List.map_congr_left
    intro c hc
    rw [hY c (by simpa using inv.qlt c (List.mem_cons_of_mem _ hc))]
  rw [hrest_eq]
  have hnew : (newQ.map fun j =>
      (Kn f + 1) ^ (2121 - yearAt s'.registry j).toNat).sum <
      (Kn f + 1) ^ (2121 - yearAt reg i).toNat := by
    cases hnq : newQ with
    | nil =>
      simp only [List.map_nil, List.sum_nil]
      exact Nat.pos_pow_of_pos _ (by omega)
    | cons c0 rest0 =>
      have hc0 := hqy c0 (by rw [hnq]; exact List.mem_cons_self _ _)
      have hE16 : 16 ≤ (2121 - yearAt reg i).toNat := by omega
      have hbound : ∀ x ∈ (c0 :: rest0).map fun j =>
          (Kn f + 1) ^ (2121 - yearAt s'.registry j).toNat,
          x ≤ (Kn f + 1) ^ ((2121 - yearAt reg i).toNat - 15) := by
        intro x hx
        obtain ⟨j, hj, rfl⟩ := List.mem_map.mp hx
        have hcj := hqy j (by rw [hnq]; exact hj)
        apply Nat.pow_le_pow_right (by omega)
        omega
      have hsum := List.sum_le_card_nsmul _ _ hbound
      rw [smul_eq_mul, List.length_map] at hsum
      have hlen0 : (c0 :: rest0).length ≤ Kn f := by
        rw [← hnq]
        exact hqlen
      calc ((c0 :: rest0).map fun j =>
            (Kn f + 1) ^ (2121 - yearAt s'.registry j).toNat).sum
          ≤ (c0 :: rest0).length *
            (Kn f + 1) ^ ((2121 - yearAt reg i).toNat - 15) := hsum
        _ ≤ Kn f * (Kn f + 1) ^ ((2121 - yearAt reg i).toNat - 15) :=
            Nat.mul_le_mul_right _ hlen0
        _ < (Kn f + 1) * (Kn f + 1) ^ ((2121 - yearAt reg i).toNat - 15) := by
            have hBpos : 0 < (Kn f + 1) ^ ((2121 - yearAt reg i).toNat - 15) :=
              Nat.pos_pow_of_pos _ (by omega)
            calc Kn f * (Kn f + 1) ^ ((2121 - yearAt reg i).toNat - 15)
                < Kn f * (Kn f + 1) ^ ((2121 - yearAt reg i).toNat - 15) +
                  (Kn f + 1) ^ ((2121 - yearAt reg i).toNat - 15) := by omega
              _ = (Kn f + 1) * (Kn f + 1) ^ ((2121 - yearAt reg i).toNat - 15) := by
                  ring
        _ = (Kn f + 1) ^ ((2121 - yearAt reg i).toNat - 15 + 1) := by
            rw [pow_succ]
            ring
        _ ≤ (Kn f + 1) ^ (2121 - yearAt reg i).toNat :=
            Nat.pow_le_pow_right (by omega) (by omega)
  omega

/-- Simultaneous invariant preservation and fuel adequacy for the loop. -/
theorem runLoop_spec (f : Factory) :
    ∀ (n : ℕ) (s : TreeState) (o : List ℚ), Inv s →
      (∀ s' o', runLoop f n s o = RunResult.ok s' o' → Inv s') ∧
      (queueMeasure (Kn f) s.registry s.queue < n →
        runLoop f n s o ≠ RunResult.outOfFuel) := by
  intro n
  induction n with
  | zero =>
    intro s o hinv
    constructor
    · intro s' o' h
      rw [runLoop] at h
      split at h
      · injection h with h1 h2
        subst h1
        exact hinv
      · exact absurd h (by simp)
    · intro hμ
      exact absurd hμ (by omega)
  | succ n ih =>
    intro s o hinv
    obtain ⟨reg, q⟩ := s
    constructor
    · intro s' o' h
      rw [runLoop] at h
      split at h
      · injection h with h1 h2
        subst h1
        exact hinv
      · rename_i i rest hqe
        simp only at hqe
        subst hqe
        split at h
        · exact absurd h (by simp)
        · rename_i st s1 o1 hstep
          exact (ih s1 o1
            (stepPerson_spec f reg rest i o s1 o1 hinv hstep).1).1 s' o' h
    · intro hμ
      rw [runLoop]
      split
      · simp
      · rename_i i rest hqe
        simp only at hqe
        subst hqe
        split
        · simp
        · rename_i st s1 o1 hstep
          have hinv1 := (stepPerson_spec f reg rest i o s1 o1 hinv hstep).1
          have hdec := step_measure f reg rest i o s1 o1 hinv hstep
          exact (ih s1 o1 hinv1).2 (by simp only at hdec hμ ⊢; omega)

theorem initRoots_spec (f : Factory) (o : List ℚ) (s : TreeState)
    (o' : List ℚ) (h : initRoots f o = some (s, o')) :
    Inv s ∧
    queueMeasure (Kn f) s.registry s.queue = (Kn f + 1) ^ 171 := by
  unfold initRoots at h
  split at h
  · exact absurd h (by simp)
  · rename_i r1 yd1 o1 h1
    split at h
    · exact absurd h (by simp)
    · rename_i r2 yd2 o2 h2
      simp only [Option.some.injEq, Prod.mk.injEq] at h
      obtain ⟨hs, _⟩ := h
      subst hs
      constructor
      · refine ⟨?_, ?_, ?_, ?_, ?_, ?_, ?_⟩
        · intro c hc
          simp only [List.mem_singleton] at hc
          subst hc
          show (0 : ℕ) < 2
          decide
        · intro c hc
          simp only [List.mem_singleton] at hc
          subst hc
          show (1950 : ℤ) ≤ 2120
          decide
        · intro c hc j hj
          simp only [List.mem_singleton] at hc
          subst hc
          injection hj with hj
          subst hj
          show (1950 : ℤ) - 10 ≤ 1950
          decide
        · intro e he
          simp only [List.mem_cons, List.not_mem_nil, or_false] at he
          rcases he with rfl | rfl <;>
            exact ⟨le_refl (1950 : ℤ), by show (1950 : ℤ) ≤ 2129; decide⟩
        · intro e he _
          simp only [List.mem_cons, List.not_mem_nil, or_false] at he
          rcases he with rfl | rfl <;> (show (1950 : ℤ) ≤ 2120; decide)
        · intro e he hc
          simp only [List.mem_cons, List.not_mem_nil, or_false] at he
          rcases he with rfl | rfl <;> exact Prov.noConfusion hc
        · intro a b hab
          rcases a with _ | a
          · injection hab with hab
            subst hab
            exact ⟨by show (1 : ℕ) < 2; decide, rfl⟩
          · rcases a with _ | a
            · injection hab with hab
              subst hab
              exact ⟨by show (0 : ℕ) < 2; decide, rfl⟩
            · exact Option.noConfusion hab
      · rfl

theorem generate_ok_inv {f : Factory} {fuel : ℕ} {o : List ℚ}
    {s : TreeState} {o' : List ℚ}
    (h : generateFamilyTree f fuel o = RunResult.ok s o') : Inv s := by
  unfold generateFamilyTree at h
  split at h
  · exact absurd h (by simp)
  · rename_i r s0 o1 h0
    exact ((runLoop_spec f fuel s0 o1 (initRoots_spec f o s0 o1 h0).1).1) s o' h

theorem generate_terminates (f : Factory) (o : List ℚ) :
    generateFamilyTree f (fuelBound f) o ≠ RunResult.outOfFuel := by
  unfold generateFamilyTree
  split
  · simp
  · rename_i r s0 o1 h0
    have hi := initRoots_spec f o s0 o1 h0
    apply (runLoop_spec f (fuelBound f) s0 o1 hi.1).2
    rw [hi.2]
    unfold fuelBound
    omega

/-! ### Concrete demographic tables and runs used by counterexamples
and witnesses -/

/-! ### Claim C1 -/

/-- C1 counterexample: a completed generation run whose registry holds a
marriage-step spouse born 2125 > 2120, so the cutoff invariant does not
extend to synthesized spouses. -/
theorem claim_C1_counterexample :
    (Prov.spouse, spC1) ∈ resultRegistry (generateFamilyTree fC1 10 oC1) ∧
      2120 < spC1.year_born := by
  with_unfolding_all decide

/-- C1 (amended): after generation every registry person has birth year
at most 2129 (the data clamp bound), and every person other than the
spouses synthesized in the marriage step — the founders and all
materialized children — has birth year at most the cutoff 2120; a
synthesized spouse can be born after 2120. -/
theorem claim_C1_cutoff (f : Factory) (fuel : ℕ) (o : List ℚ)
    (s : TreeState) (o' : List ℚ)
    (h : generateFamilyTree f fuel o = RunResult.ok s o') :
    ∀ e ∈ s.registry, e.2.year_born ≤ 2129 ∧
      (e.1 ≠ Prov.spouse → e.2.year_born ≤ 2120) := by
  intro e he
  have hinv := generate_ok_inv h
  exact ⟨(hinv.reginv.ry e he).2, fun hp => hinv.reginv.rp e he hp⟩

/-- Witness for C1 at a tiny completed run. -/
theorem claim_C1_witness : (Prov.founder, pW1).2.year_born ≤ 2129 :=
  (claim_C1_cutoff fW 3 [0, 0, 0] sW [] (by with_unfolding_all decide)
    (Prov.founder, pW1) (by with_unfolding_all decide)).1

/-! ### Claim C2 -/

/-- C2 counterexample: a completed run whose registry holds a
marriage-step spouse (a non-founder) surnamed "Garcia" from the
demographic table, so non-founders need not carry a founder surname. -/
theorem claim_C2_counterexample :
    (Prov.spouse, spC2) ∈ resultRegistry (generateFamilyTree fC2 10 oC2) ∧
      spC2.last_name ≠ "Jones" ∧ spC2.last_name ≠ "Smith" := by
  with_unfolding_all decide

/-- C2 (amended): every materialized child carries one of the two
founder surnames "Jones"/"Smith"; spouses synthesized in the marriage
step draw their surname from the demographic table instead. -/
theorem claim_C2_surnames (f : Factory) (fuel : ℕ) (o : List ℚ)
    (s : TreeState) (o' : List ℚ)
    (h : generateFamilyTree f fuel o = RunResult.ok s o') :
    ∀ e ∈ s.registry, e.1 = Prov.child →
      e.2.last_name = "Jones" ∨ e.2.last_name = "Smith" :=
  fun e he hc => ((generate_ok_inv h).reginv.rc e he hc).1

/-- Witness for C2 at the child of the fC2 run. -/
theorem claim_C2_witness :
    (Prov.child, cC2).2.last_name = "Jones" ∨
      (Prov.child, cC2).2.last_name = "Smith" :=
  claim_C2_surnames fC2 10 oC2 sC2 [] (by with_unfolding_all decide)
    (Prov.child, cC2) (by with_unfolding_all decide) rfl

/-! ### Claim C7 -/

/-- C7: generation always terminates — the explicit fuel bound derived
from the birth-rate table is never exhausted, because every child
enqueued while expanding a dequeued person is born strictly later than
that person (at least 15 years, via the 25-year offset from the elder
parent who is at most 10 years younger), and the 2120 cutoff bounds the
chain. -/
theorem claim_C7_termination :
    (∀ (f : Factory) (o : List ℚ),
      generateFamilyTree f (fuelBound f) o ≠ RunResult.outOfFuel) ∧
    (∀ (f : Factory) (reg : Registry) (rest : List ℕ) (i : ℕ) (o : List ℚ)
      (s' : TreeState) (o' : List ℚ), Inv ⟨reg, i :: rest⟩ →
      stepPerson f ⟨reg, rest⟩ i o = some (s', o') →
      ∀ c ∈ s'.queue, c ∈ rest ∨ yearAt reg i < yearAt s'.registry c) := by
  constructor
  · exact generate_terminates
  · intro f reg rest i o s' o' hinv hstep c hc
    obtain ⟨_, _, _, newQ, hq, _, hqy⟩ :=
      stepPerson_spec f reg rest i o s' o' hinv hstep
    rw [hq] at hc
    rcases List.mem_append.mp hc with h | h
    · exact Or.inl h
    · right
      have := (hqy c h).1
      omega

/-- Witness for C7: a concrete fuel-adequate run, and a concrete loop
iteration that enqueues a child born strictly later than the dequeued
founder. -/
theorem claim_C7_witness :
    generateFamilyTree fC2 (fuelBound fC2) [] ≠ RunResult.outOfFuel ∧
      ((2 : ℕ) ∈ ([] : List ℕ) ∨
        yearAt s0C7.registry 0 < yearAt s1C7.registry 2) := by
  constructor
  · exact claim_C7_termination.1 fC2 []
  · exact claim_C7_termination.2 fC2 s0C7.registry [] 0 [0, 0, 0, 0, 0]
      s1C7 []
      (initRoots_spec fC2 [0, 0] s0C7 [] (by with_unfolding_all decide)).1
      (by with_unfolding_all decide) 2 (by with_unfolding_all decide)

/-! ### Claim C9 -/

/-- C9: the spouse relation is symmetric after every completed run, and
every single loop iteration started from an invariant state preserves
the symmetry (founder initialization establishes it, the marriage step
links both directions, child materialization adds spouse-less people). -/
theorem claim_C9_spouse_symmetry :
    (∀ (f : Factory) (fuel : ℕ) (o : List ℚ) (s : TreeState) (o' : List ℚ),
      generateFamilyTree f fuel o = RunResult.ok s o' →
      ∀ a b, spouseAt s.registry a = some b →
        spouseAt s.registry b = some a) ∧
    (∀ (f : Factory) (reg : Registry) (rest : List ℕ) (i : ℕ) (o : List ℚ)
      (s' : TreeState) (o' : List ℚ), Inv ⟨reg, i :: rest⟩ →
      stepPerson f ⟨reg, rest⟩ i o = some (s', o') →
      ∀ a b, spouseAt s'.registry a = some b →
        spouseAt s'.registry b = some a) := by
  constructor
  · intro f fuel o s o' h a b hab
    exact ((generate_ok_inv h).reginv.rs a b hab).2
  · intro f reg rest i o s' o' hinv hstep a b hab
    exact (((stepPerson_spec f reg rest i o s' o' hinv
      hstep).1).reginv.rs a b hab).2

/-- Witness for C9: in the completed fW run the two founders point at
each other. -/
theorem claim_C9_witness : spouseAt sW.registry 1 = some 0 :=
  claim_C9_spouse_symmetry.1 fW 3 [0, 0, 0] sW []
    (by with_unfolding_all decide) 0 1 (by with_unfolding_all decide)

/-! ### Claim C10 -/

/-- C10: the clamp inside `get_person` is the identity on `[1975, 2120]`
(indeed on all of `[1950, 2129]`), so a materialized child's stored
birth year equals the requested distributed year exactly; and in every
completed run every child's birth year lies in `[1975, 2120]`, strictly
inside the clamp range, so only spouse generation can ever be passed a
year outside it. -/
theorem claim_C10_child_year_identity :
    (∀ y : ℤ, 1975 ≤ y → y ≤ 2120 → clamp_year_to_data y = y) ∧
    (∀ (f : Factory) (y : ℤ) (o : List ℚ) (p : Person) (o' : List ℚ),
      1975 ≤ y → y ≤ 2120 → getPerson f y o = some (p, o') →
      p.year_born = y) ∧
    (∀ (f : Factory) (fuel : ℕ) (o : List ℚ) (s : TreeState) (o' : List ℚ),
      generateFamilyTree f fuel o = RunResult.ok s o' →
      ∀ e ∈ s.registry, e.1 = Prov.child →
        1975 ≤ e.2.year_born ∧ e.2.year_born ≤ 2120) := by
  refine ⟨?_, ?_, ?_⟩
  · intro y h1 h2
    exact clamp_year_eq_self (by omega) (by omega)
  · intro f y o p o' h1 h2 hp
    rw [(getPerson_fields f y o p o' hp).1]
    exact clamp_year_eq_self (by omega) (by omega)
  · intro f fuel o s o' h e he hc
    exact ((generate_ok_inv h).reginv.rc e he hc).2

/-- Witness for C10 at the concrete year 1985. -/
theorem claim_C10_witness : clamp_year_to_data 1985 = 1985 :=
  claim_C10_child_year_identity.1 1985 (by decide) (by decide)

end FamilyTreeSim
